import Mathlib

/-!
Verification of the cornifer/scry streaming GZIP decompressor.

The definitions below are a shallow embedding of the Rust sources:
  * `src/cornifer/src/circle.rs` / `src/scry/src/circle.rs` (sliding window),
  * `src/scry/src/huffman.rs` (canonical Huffman tables),
  * `src/cornifer/src/reader.rs` / `src/scry/src/reader.rs` (byte/bit reader),
  * `src/cornifer/src/header.rs` (GZIP member header),
  * `src/scry/src/checkpoint.rs` (checkpointer),
  * `src/scry/src/decompress.rs` (the Deflator state machine).

Bytes are modelled as `Nat` values below 256; machine integers are `Nat`
with explicit reductions modulo `2 ^ 16` or `2 ^ 32` where the Rust code
wraps (release semantics).  Fallible operations return `Except ScryError`.
A Rust panic that is reachable from safe code (an out-of-bounds slice
index) is modelled by the distinguished error `ScryError.panicOutOfBounds`.
-/

namespace Cornifer

/-- Error type; union of the variants of `ScryError` (scry) and
`CorniferError` (cornifer) that the modelled code can produce.
`panicOutOfBounds` stands for a Rust panic from an out-of-bounds index. -/
inductive ScryError where
  | notGZIPHeader
  | invalidCompressionMethod
  | invalidHeaderCRC (expected found : Nat)
  | invalidBlockType
  | invalidNonCompressedBlockHeader (position expected found : Nat)
  | invalidGZIPCRC (position expected found : Nat)
  | invalidGZIPIsize (position expected found : Nat)
  | invalidLengthDistancePair (lookback size : Nat)
  | invalidNumberOfBits (num : Nat)
  | invalidHuffmanCode (code position bit : Nat)
  | invalidDynamicBlockCodeLength
  | utf8Invalid
  | eof
  | expectedEOF
  | panicOutOfBounds
  deriving DecidableEq, Repr

/-! ## CRC-32 (ISO-HDLC, reflected polynomial 0xEDB88320)

The Rust sources use the `crc` crate with `CRC_32_ISO_HDLC`; this is the
standard reflected CRC-32 with initial value `0xFFFFFFFF` and final xor
`0xFFFFFFFF`. -/

/-- One bit step of the reflected CRC-32. -/
def crcBit (c : Nat) : Nat :=
  if c % 2 = 1 then (c / 2) ^^^ 0xEDB88320 else c / 2

/-- Iterate `crcBit`. -/
def crcBits : Nat → Nat → Nat
  | 0, c => c
  | n + 1, c => crcBits n (crcBit c)

/-- Absorb one byte into the CRC state. -/
def crcByte (c b : Nat) : Nat := crcBits 8 (c ^^^ (b % 256))

/-- CRC-32 of a byte sequence. -/
def crc32Fn (bs : List Nat) : Nat :=
  (bs.foldl crcByte 0xFFFFFFFF) ^^^ 0xFFFFFFFF

/-! ## Sliding window (`CircularBuffer`, from `src/cornifer/src/circle.rs`)

The buffer is a fixed ring of `size` bytes.  The `Vec<u8>` is modelled as a
function from index to byte (only indices `< size` are ever used; they are
always produced by reduction modulo `size`).  The two `Digest` values are
modelled by the exact byte stream fed to them since the last reset: the
`crc` crate's digest is a pure function (`crc32Fn`) of that stream.
`counter` is a `u32` updated with `wrapping_add`; `bytes_written` is a
`usize` that the program never wraps. -/

structure CircularBuffer where
  size : Nat
  buf : Nat → Nat
  head : Nat
  gzipDigest : List Nat
  blockDigest : List Nat
  counter : Nat
  bytesWritten : Nat

namespace CircularBuffer

/-- `CircularBuffer::new(size)`.  The Rust code draws the starting head
from `rng.gen_range(0..size)`; the random value is the parameter `h0`. -/
def new (size h0 : Nat) : CircularBuffer :=
  { size := size
    buf := fun _ => 0
    head := h0
    gzipDigest := []
    blockDigest := []
    counter := 0
    bytesWritten := 0 }

/-- `CircularBuffer::push`. -/
def push (w : CircularBuffer) (byte : Nat) : CircularBuffer :=
  { w with
    buf := fun i => if i = w.head then byte else w.buf i
    head := (w.head + 1) % w.size
    gzipDigest := w.gzipDigest ++ [byte]
    blockDigest := w.blockDigest ++ [byte]
    counter := (w.counter + 1) % 2 ^ 32
    bytesWritten := w.bytesWritten + 1 }

/-- The index `(head - lookback).rem_euclid(len)` read by
`push_from_buffer`.  Rust's `rem_euclid` on `isize` is `Int.emod`. -/
def target (w : CircularBuffer) (lookback : Nat) : Nat :=
  (((w.head : Int) - (lookback : Int)) % (w.size : Int)).toNat

/-- The `for _ in 0..size` loop body of `push_from_buffer`. -/
def pushLoop (w : CircularBuffer) (lookback : Nat) : Nat → CircularBuffer
  | 0 => w
  | n + 1 => pushLoop (w.push (w.buf (w.target lookback))) lookback n

/-- `CircularBuffer::push_from_buffer`. -/
def push_from_buffer (w : CircularBuffer) (lookback size : Nat) :
    Except ScryError CircularBuffer :=
  if 32768 < lookback then
    .error (.invalidLengthDistancePair lookback size)
  else
    .ok (w.pushLoop lookback size)

/-- `CircularBuffer::head(n)` (always returns `Ok` in the source; the
payload list is modelled directly). -/
def headBytes (w : CircularBuffer) (n : Nat) : List Nat :=
  (List.range n).map fun i =>
    w.buf ((((w.head : Int) - ((n - i : Nat) : Int)) % (w.size : Int)).toNat)

/-- `CircularBuffer::crc32`: finalize the member digest and reset it. -/
def crc32 (w : CircularBuffer) : Nat × CircularBuffer :=
  (crc32Fn w.gzipDigest, { w with gzipDigest := [] })

/-- `CircularBuffer::block_crc32`: finalize the block digest and reset it. -/
def block_crc32 (w : CircularBuffer) : Nat × CircularBuffer :=
  (crc32Fn w.blockDigest, { w with blockDigest := [] })

/-- `CircularBuffer::counter`: return the wrapping byte counter, reset it. -/
def counterTake (w : CircularBuffer) : Nat × CircularBuffer :=
  (w.counter, { w with counter := 0 })

/-- `CircularBuffer::get_bytes_written`. -/
def get_bytes_written (w : CircularBuffer) : Nat := w.bytesWritten

/-- `CircularBuffer::get_normalized_buffer` = `head(buffer.len() as u16)`. -/
def get_normalized_buffer (w : CircularBuffer) : List Nat :=
  w.headBytes (w.size % 2 ^ 16)

/-- Push a whole list of bytes in order. -/
def pushAll (w : CircularBuffer) (bs : List Nat) : CircularBuffer :=
  bs.foldl push w

end CircularBuffer

/-- Spec-level expansion of an LZ77 back-reference over the full push
history: each emitted byte is the byte written `d` positions earlier at
the moment of that push (run-length overlap included, since the history
grows as bytes are emitted). -/
def lzExpand : List Nat → Nat → Nat → List Nat
  | _, _, 0 => []
  | hist, d, l + 1 =>
    let b := hist.getD (hist.length - d) 0
    b :: lzExpand (hist ++ [b]) d l

/-- An externally-applied window operation (the two mutating operations
of the public interface). -/
inductive WindowOp where
  | push (b : Nat)
  | pushFromBuffer (d l : Nat)
  deriving DecidableEq, Repr

/-- Apply one operation; a failed `push_from_buffer` leaves the window
unchanged (the Rust method returns its error before any mutation). -/
def applyOp (w : CircularBuffer) : WindowOp → CircularBuffer
  | .push b => w.push b
  | .pushFromBuffer d l =>
    match w.push_from_buffer d l with
    | .ok w2 => w2
    | .error _ => w

/-- Apply a sequence of operations. -/
def applyOps (w : CircularBuffer) (ops : List WindowOp) : CircularBuffer :=
  ops.foldl applyOp w

/-- Two windows differ only by a rotation `δ` of the ring: same size, the
heads are `δ` apart, cell `i` of the first appears at cell `(i + δ) % size`
of the second, and all externally summed state agrees. -/
def RotEquiv (δ : Nat) (w1 w2 : CircularBuffer) : Prop :=
  w2.size = w1.size ∧ w1.head < w1.size ∧
  w2.head = (w1.head + δ) % w1.size ∧
  (∀ i, i < w1.size → w2.buf ((i + δ) % w1.size) = w1.buf i) ∧
  w2.gzipDigest = w1.gzipDigest ∧ w2.blockDigest = w1.blockDigest ∧
  w2.counter = w1.counter ∧ w2.bytesWritten = w1.bytesWritten

/-! ## Huffman table (`src/scry/src/huffman.rs`)

`HuffmanTree::new` computes `bl_count` and `next_code` in `u16` arithmetic
(the shift `<< 1` silently drops the high bit in Rust) and inserts one
entry per non-zero-length symbol into a `HashMap<u16, HuffmanCode>`; a
later insert with the same key overwrites an earlier one.  The map is
modelled as the insertion-ordered association list, with lookup returning
the most recent binding. -/

def MAX_HUFFMAN_BITS : Nat := 15

structure HuffmanCode where
  symbol : Nat
  len : Nat
  deriving DecidableEq, Repr

structure HuffmanTree where
  lut : List (Nat × HuffmanCode)
  deriving DecidableEq, Repr

instance : Inhabited HuffmanTree := ⟨⟨[]⟩⟩

/-- HashMap lookup: the most recent insert of the key wins. -/
def lutGet : List (Nat × HuffmanCode) → Nat → Option HuffmanCode
  | [], _ => none
  | (c, hc) :: rest, k =>
    match lutGet rest k with
    | some r => some r
    | none => if c = k then some hc else none

/-- `bl_count[len]` (a `u16` count; index 0 is zeroed by the source). -/
def blCount (L : List Nat) (len : Nat) : Nat :=
  if len = 0 then 0 else (L.countP (fun x => x == len)) % 2 ^ 16

/-- `next_code[len]`, as computed by the `for bits in 1..=MAX_HUFFMAN_BITS`
loop: `code = (code + bl_count[bits-1]) << 1` on `u16`. -/
def nextCodeFn (L : List Nat) : Nat → Nat
  | 0 => 0
  | len + 1 => ((nextCodeFn L len + blCount L len) * 2) % 2 ^ 16

/-- The assignment loop over the length vector: a symbol of non-zero
length `len` receives `next_code[len]`, which is then incremented
(`u16`); zero-length symbols receive the placeholder 0. -/
def assignCodes (nc : Nat → Nat) : List Nat → List Nat
  | [] => []
  | len :: rest =>
    if len = 0 then 0 :: assignCodes nc rest
    else nc len ::
      assignCodes (fun l => if l = len then (nc len + 1) % 2 ^ 16 else nc l) rest

/-- The insertion loop: symbol `i` (stored as `i as u16`) is inserted
with its code as key when its length is positive. -/
def lutOf : Nat → List Nat → List Nat → List (Nat × HuffmanCode)
  | _, [], _ => []
  | _, _ :: _, [] => []
  | i, len :: ls, code :: cs =>
    (if 0 < len then [(code, ⟨i % 2 ^ 16, len⟩)] else []) ++ lutOf (i + 1) ls cs

/-- `HuffmanTree::new`. -/
def HuffmanTree.new (bit_lengths : List Nat) : HuffmanTree :=
  ⟨lutOf 0 bit_lengths (assignCodes (nextCodeFn bit_lengths) bit_lengths)⟩

/-- `HuffmanTree::decode`. -/
def HuffmanTree.decode (t : HuffmanTree) (code len : Nat) : Option Nat :=
  match lutGet t.lut code with
  | none => none
  | some lookup => if len = lookup.len then some lookup.symbol else none

/-- `HuffmanTree::fixed` (the RFC 1951 fixed literal/length code). -/
def HuffmanTree.fixed : HuffmanTree :=
  HuffmanTree.new (List.replicate 144 8 ++ List.replicate 112 9 ++
    List.replicate 24 7 ++ List.replicate 8 8)

/-- `HuffmanTree::fixed_dist` (31 symbols of length 5). -/
def HuffmanTree.fixed_dist : HuffmanTree :=
  HuffmanTree.new (List.replicate 31 5)

/-! Spec-side canonical-code definitions (RFC 1951 §3.2.2, spec §4.3),
used to compare the table built by `HuffmanTree.new` with the canonical
assignment. -/

/-- Number of symbols of a given non-zero length (`bl_count` without the
`u16` truncation). -/
def symCount (L : List Nat) (len : Nat) : Nat :=
  if len = 0 then 0 else L.countP (fun x => x == len)

/-- Modelled from the spec (§4.3 step 2): the smallest canonical code of
each length, in unbounded arithmetic. -/
def canonicalNextCode (L : List Nat) : Nat → Nat
  | 0 => 0
  | len + 1 => (canonicalNextCode L len + symCount L len) * 2

/-- Modelled from the spec (§4.3 step 3): the canonical RFC 1951 code of
symbol `i` is `next_code[L[i]]` plus the number of earlier symbols of the
same length.  (For `L[i] = 0` the value is 0 and unused.) -/
def canonicalCode (L : List Nat) (i : Nat) : Nat :=
  canonicalNextCode L (L.getD i 0) + symCount (L.take i) (L.getD i 0)

/-- Kraft validity: all lengths are at most 15 and the code space is not
over-subscribed. -/
def KraftValid (L : List Nat) : Prop :=
  (∀ x ∈ L, x ≤ 15) ∧
    ((L.filter (fun x => x != 0)).map (fun x => 2 ^ (15 - x))).sum ≤ 2 ^ 15

/-! ## Byte/bit reader (`src/cornifer/src/reader.rs`, identical in scry
apart from `read_n_bits_le` living in the cornifer copy)

The underlying `Read` source is the remaining byte list; `current_byte`
counts consumed bytes.  The optional CRC scope is modelled by the byte
stream fed to it since `begin_crc`. -/

structure ScryByteReader where
  input : List Nat
  current_byte : Nat
  current_bit : Nat
  buffer : Nat
  digest : Option (List Nat)
  deriving DecidableEq, Repr

namespace ScryByteReader

def new (input : List Nat) : ScryByteReader :=
  { input := input, current_byte := 0, current_bit := 0, buffer := 0,
    digest := none }

/-- `read_exact_internal` for one byte (all multi-byte reads go through
single-byte reads of the byte list; EOF mid-read is the `EOF` error). -/
def read_u8 (r : ScryByteReader) : Except ScryError (Nat × ScryByteReader) :=
  match r.input with
  | [] => .error .eof
  | b :: rest =>
    .ok (b, { r with
      input := rest
      current_byte := r.current_byte + 1
      digest := r.digest.map (fun d => d ++ [b]) })

def read_u16_le (r : ScryByteReader) : Except ScryError (Nat × ScryByteReader) := do
  let (b0, r) ← r.read_u8
  let (b1, r) ← r.read_u8
  .ok (b0 + b1 * 256, r)

def read_u32_le (r : ScryByteReader) : Except ScryError (Nat × ScryByteReader) := do
  let (b0, r) ← r.read_u8
  let (b1, r) ← r.read_u8
  let (b2, r) ← r.read_u8
  let (b3, r) ← r.read_u8
  .ok (b0 + b1 * 256 + b2 * 65536 + b3 * 16777216, r)

def begin_crc (r : ScryByteReader) : ScryByteReader :=
  { r with digest := some [] }

def end_crc (r : ScryByteReader) : Option Nat × ScryByteReader :=
  (r.digest.map crc32Fn, { r with digest := none })

def read_bit (r : ScryByteReader) : Except ScryError (Nat × ScryByteReader) := do
  let (buf, r1) ←
    if r.current_bit = 0 then do
      let (b, r2) ← r.read_u8
      pure (b, { r2 with buffer := b })
    else pure (r.buffer, r)
  let result := (buf >>> r1.current_bit) &&& 1
  .ok (result, { r1 with current_bit := (r1.current_bit + 1) % 8 })

def readNBitsAux (r : ScryByteReader) (value i : Nat) :
    Nat → Except ScryError (Nat × ScryByteReader)
  | 0 => .ok (value, r)
  | remaining + 1 => do
    let (bit, r2) ← r.read_bit
    readNBitsAux r2 (value ||| (bit <<< i)) (i + 1) remaining

def read_n_bits_le (r : ScryByteReader) (n : Nat) :
    Except ScryError (Nat × ScryByteReader) :=
  if 16 < n then .error (.invalidNumberOfBits n)
  else readNBitsAux r 0 0 n

def discard_until_next_byte (r : ScryByteReader) : ScryByteReader :=
  { r with current_bit := 0 }

/-- The `loop { match read_u8 ... }` of `read_null_terminated_string`,
collecting bytes until a NUL.  The fuel is instantiated with
`input.length + 1`, which the loop can never exhaust (each iteration
consumes one byte, and with no bytes left `read_u8` returns `EOF`), so
the `fuel = 0` branch is unreachable. -/
def readStringAux (r : ScryByteReader) (acc : List Nat) :
    Nat → Except ScryError (List Nat × ScryByteReader)
  | 0 => .error .eof
  | fuel + 1 =>
    match r.read_u8 with
    | .error e => .error e
    | .ok (b, r2) =>
      if b = 0 then .ok (acc, r2)
      else readStringAux r2 (acc ++ [b]) fuel

def isUtf8Cont (b : Nat) : Bool := decide (0x80 ≤ b) && decide (b ≤ 0xBF)

/-- `String::from_utf8` validity over the byte list (standard UTF-8 DFA
with overlong/surrogate/range checks). -/
def utf8Valid : List Nat → Bool
  | [] => true
  | b :: rest =>
    if b ≤ 0x7F then utf8Valid rest
    else if 0xC2 ≤ b ∧ b ≤ 0xDF then
      match rest with
      | c1 :: rest2 => isUtf8Cont c1 && utf8Valid rest2
      | [] => false
    else if b = 0xE0 then
      match rest with
      | c1 :: c2 :: rest2 =>
        (decide (0xA0 ≤ c1) && decide (c1 ≤ 0xBF)) && isUtf8Cont c2 && utf8Valid rest2
      | _ => false
    else if (0xE1 ≤ b ∧ b ≤ 0xEC) ∨ b = 0xEE ∨ b = 0xEF then
      match rest with
      | c1 :: c2 :: rest2 => isUtf8Cont c1 && isUtf8Cont c2 && utf8Valid rest2
      | _ => false
    else if b = 0xED then
      match rest with
      | c1 :: c2 :: rest2 =>
        (decide (0x80 ≤ c1) && decide (c1 ≤ 0x9F)) && isUtf8Cont c2 && utf8Valid rest2
      | _ => false
    else if b = 0xF0 then
      match rest with
      | c1 :: c2 :: c3 :: rest2 =>
        (decide (0x90 ≤ c1) && decide (c1 ≤ 0xBF)) && isUtf8Cont c2 && isUtf8Cont c3
          && utf8Valid rest2
      | _ => false
    else if 0xF1 ≤ b ∧ b ≤ 0xF3 then
      match rest with
      | c1 :: c2 :: c3 :: rest2 =>
        isUtf8Cont c1 && isUtf8Cont c2 && isUtf8Cont c3 && utf8Valid rest2
      | _ => false
    else if b = 0xF4 then
      match rest with
      | c1 :: c2 :: c3 :: rest2 =>
        (decide (0x80 ≤ c1) && decide (c1 ≤ 0x8F)) && isUtf8Cont c2 && isUtf8Cont c3
          && utf8Valid rest2
      | _ => false
    else false

/-- `read_null_terminated_string` (result kept as the raw byte list). -/
def read_null_terminated_string (r : ScryByteReader) :
    Except ScryError (List Nat × ScryByteReader) := do
  let (bytes, r2) ← readStringAux r [] (r.input.length + 1)
  if utf8Valid bytes then .ok (bytes, r2) else .error .utf8Invalid

/-- The `for _ in 0..xlen { read_u8 }` skip loop of the FEXTRA field. -/
def skipBytes (r : ScryByteReader) : Nat → Except ScryError ScryByteReader
  | 0 => .ok r
  | n + 1 => do
    let (_, r2) ← r.read_u8
    skipBytes r2 n

end ScryByteReader

/-! ## GZIP member header (`src/cornifer/src/header.rs`) -/

inductive ExtraFlag where
  | slowestAlgorithm
  | fastestAlgorithm
  | unknown
  deriving DecidableEq, Repr

inductive OperatingSystem where
  | fat
  | unix
  | macintosh
  | ntfs
  | unknown
  deriving DecidableEq, Repr

structure GzipHeader where
  text : Bool
  name : Option (List Nat)
  comment : Option (List Nat)
  mtime : Nat
  extra : ExtraFlag
  os : OperatingSystem
  deriving DecidableEq, Repr

/-- `read_header`. -/
def read_header (sr : ScryByteReader) :
    Except ScryError (GzipHeader × ScryByteReader) := do
  let sr := sr.begin_crc
  let (id1, sr) ←
    match sr.read_u8 with
    | .ok p => pure p
    | .error e =>
      match e with
      | .eof => throw .expectedEOF
      | _ => throw e
  let (id2, sr) ← sr.read_u8
  if id1 ≠ 0x1f ∨ id2 ≠ 0x8b then throw .notGZIPHeader
  else do
  let (cm, sr) ← sr.read_u8
  if cm ≠ 8 then throw .invalidCompressionMethod
  else do
  let (flg, sr) ← sr.read_u8
  let ftext := flg &&& 1
  let fhcrc := (flg >>> 1) &&& 1
  let fextra := (flg >>> 2) &&& 1
  let fname := (flg >>> 3) &&& 1
  let fcomment := (flg >>> 4) &&& 1
  let (mtime, sr) ← sr.read_u32_le
  let (xflByte, sr) ← sr.read_u8
  let xfl :=
    match xflByte with
    | 2 => ExtraFlag.slowestAlgorithm
    | 4 => ExtraFlag.fastestAlgorithm
    | _ => ExtraFlag.unknown
  let (osByte, sr) ← sr.read_u8
  let os :=
    match osByte with
    | 0 => OperatingSystem.fat
    | 3 => OperatingSystem.unix
    | 7 => OperatingSystem.macintosh
    | 11 => OperatingSystem.ntfs
    | _ => OperatingSystem.unknown
  let sr ← (do
    if fextra = 1 then do
      let (xlen, sr2) ← sr.read_u16_le
      sr2.skipBytes xlen
    else pure sr)
  let (name, sr) ←
    if fname = 1 then do
      let (s, sr2) ← sr.read_null_terminated_string
      pure (some s, sr2)
    else pure (none, sr)
  let (comment, sr) ←
    if fcomment = 1 then do
      let (s, sr2) ← sr.read_null_terminated_string
      pure (some s, sr2)
    else pure (none, sr)
  let (hcrcOpt, sr) := sr.end_crc
  let hcrc_actual := hcrcOpt.getD 0
  let sr ←
    if fhcrc = 1 then do
      let truncated := hcrc_actual % 2 ^ 16
      let (hcrc, sr2) ← sr.read_u16_le
      if hcrc ≠ truncated then
        throw (.invalidHeaderCRC truncated hcrc)
      else pure sr2
    else pure sr
  .ok ({ text := ftext = 1, name := name, comment := comment,
         mtime := mtime, extra := xfl, os := os }, sr)

/-! ## Decompressor data types (`src/scry/src/decompress.rs`) -/

def THIRTY_TWO_KILOBYTES : Nat := 32768

def BASE_LENGTHS : List Nat :=
  [3, 4, 5, 6, 7, 8, 9, 10] ++ [11, 13, 15, 17, 19, 23, 27, 31] ++
  [35, 43, 51, 59, 67, 83, 99, 115] ++ [131, 163, 195, 227, 258]

def LENGTH_EXTRA_BITS : List Nat :=
  [0, 0, 0, 0, 0, 0, 0, 0] ++ [1, 1, 1, 1, 2, 2, 2, 2] ++
  [3, 3, 3, 3, 4, 4, 4, 4] ++ [5, 5, 5, 5, 0]

def BASE_DISTS : List Nat :=
  [1, 2, 3, 4, 5, 7, 9, 13] ++ [17, 25, 33, 49, 65, 97, 129, 193] ++
  [257, 385, 513, 769, 1025, 1537, 2049, 3073] ++
  [4097, 6145, 8193, 12289, 16385, 24577]

def DIST_EXTRA_BITS : List Nat :=
  [0, 0, 0, 0, 1, 1, 2, 2] ++ [3, 3, 4, 4, 5, 5, 6, 6] ++
  [7, 7, 8, 8, 9, 9, 10, 10] ++ [11, 11, 12, 12, 13, 13]

def CODE_LENGTH_ORDER : List Nat :=
  [16, 17, 18, 0, 8, 7, 9] ++ [6, 10, 5, 11, 4, 12] ++ [3, 13, 2, 14, 1, 15]

def MAX_SYMBOL_CODES : Nat := 286

def MAX_DISTANCE_CODES : Nat := 30

inductive BlockType where
  | noCompression
  | fixedHuffman
  | dynamicHuffman
  deriving DecidableEq, Repr

structure BlockHeader where
  block_type : BlockType
  is_final : Bool
  deriving DecidableEq, Repr

/-- One call made by the decoder on its `Checkpointer` (decoder side of
the C6 interface; recorded in call order). -/
inductive CheckpointEvent where
  | blockStart (byte bit to_byte : Nat)
  | setBlockType (bt : BlockType)
  | blockDataStart (byte bit : Nat) (data : List Nat)
  | blockEnd (byte bit to_byte crc : Nat)
  deriving DecidableEq, Repr

inductive DeflatorState where
  | gzipHeader
  | blockHeader
  | prepareNonCompressedBlock
  | nonCompressedBlock (len : Nat)
  | prepareDynamicBlock
  | decodeBlock (symbol_tree distance_tree : HuffmanTree)
  | writeLookback (current len : Nat) (symbol_tree distance_tree : HuffmanTree)
  | checkIfFinalBlock
  | gzipFooter
  | done
  deriving DecidableEq, Repr

def DeflatorState.isDone : DeflatorState → Bool
  | .done => true
  | _ => false

structure Deflator where
  buffer : CircularBuffer
  state : DeflatorState
  in_final_block : Bool
  reader : ScryByteReader
  events : List CheckpointEvent

/-- `Deflator::new`; `h0` is the random initial window head. -/
def Deflator.new (reader : ScryByteReader) (h0 : Nat) : Deflator :=
  { buffer := CircularBuffer.new THIRTY_TWO_KILOBYTES h0
    state := .gzipHeader
    in_final_block := false
    reader := reader
    events := [] }

/-- `Deflator::read_block_header`. -/
def read_block_header (r : ScryByteReader) :
    Except ScryError (BlockHeader × ScryByteReader) := do
  let (is_final, r) ← r.read_bit
  let (block_bits, r) ← r.read_n_bits_le 2
  let block_type ←
    match block_bits with
    | 0 => pure BlockType.noCompression
    | 1 => pure BlockType.fixedHuffman
    | 2 => pure BlockType.dynamicHuffman
    | _ => throw ScryError.invalidBlockType
  .ok ({ block_type := block_type, is_final := is_final = 1 }, r)

/-- The symbol-decoding loop of `Deflator::decode`.  The counter starts
at `16 - len`; the `0` case is unreachable because the `len > 15` check
fires first. -/
def decodeSymAux (tree : HuffmanTree) (r : ScryByteReader) (byte len : Nat) :
    Nat → Except ScryError (Nat × ScryByteReader)
  | 0 => .error (.invalidHuffmanCode byte r.current_byte r.current_bit)
  | fuel + 1 => do
    let (bit, r2) ← r.read_bit
    let byte2 := (byte * 2 + bit) % 2 ^ 16
    let len2 := len + 1
    match tree.decode byte2 len2 with
    | some symbol => .ok (symbol, r2)
    | none =>
      if 15 < len2 then
        .error (.invalidHuffmanCode byte2 r2.current_byte r2.current_bit)
      else
        decodeSymAux tree r2 byte2 len2 fuel

/-- `Deflator::decode`. -/
def decodeSym (tree : HuffmanTree) (r : ScryByteReader) :
    Except ScryError (Nat × ScryByteReader) :=
  decodeSymAux tree r 0 0 16

/-! ## Checkpointer (`src/scry/src/checkpoint.rs`)

The sqlite side-store is modelled relationally: the `HuffmanBlock` rows
in insertion order, the in-flight row being the last one. -/

/-- `dist_in_bits`. -/
def dist_in_bits (byte1 : Nat) (bit1 : Nat) (byte2 : Nat) (bit2 : Nat) : Int :=
  (((byte2 : Int) - (byte1 : Int)) * 8) + ((bit2 : Int) - (bit1 : Int))

structure HuffmanBlockRow where
  from_byte : Nat
  from_bit : Nat
  to_byte : Nat
  block_type : BlockType
  header_len_bits : Int
  crc32 : Option Nat
  len : Option Nat
  block_len_bits : Option Int
  data : List Nat
  deriving DecidableEq, Repr

structure Checkpointer where
  emit_block_type : BlockType
  emit_byte : Nat
  emit_bit : Nat
  to_byte : Nat
  rows : List HuffmanBlockRow

/-- `Checkpointer::init` / `init_memory` (fresh store). -/
def Checkpointer.init : Checkpointer :=
  { emit_block_type := .noCompression
    emit_byte := 0
    emit_bit := 0
    to_byte := 0
    rows := [] }

/-- `Checkpointer::set_block_type`. -/
def Checkpointer.set_block_type (cp : Checkpointer) (bt : BlockType) :
    Checkpointer :=
  { cp with emit_block_type := bt }

/-- `Checkpointer::on_block_start`: record the adjusted input position
(`curr_byte - 1` when mid-byte) and the output position. -/
def Checkpointer.on_block_start (cp : Checkpointer) (curr_byte : Nat)
    (bit : Nat) (to_byte : Nat) : Checkpointer :=
  { cp with
    emit_byte := if bit = 0 then curr_byte else curr_byte - 1
    emit_bit := bit
    to_byte := to_byte }

/-- `Checkpointer::on_block_data_start`: insert the row with
`header_len_bits` and the window snapshot. -/
def Checkpointer.on_block_data_start (cp : Checkpointer) (curr_byte : Nat)
    (bit : Nat) (data : List Nat) : Checkpointer :=
  let curr_byte2 := if bit = 0 then curr_byte else curr_byte - 1
  let block_header_size_bits :=
    dist_in_bits cp.emit_byte cp.emit_bit curr_byte2 bit
  { cp with
    rows := cp.rows ++
      [{ from_byte := cp.emit_byte
         from_bit := cp.emit_bit
         to_byte := cp.to_byte
         block_type := cp.emit_block_type
         header_len_bits := block_header_size_bits
         crc32 := none
         len := none
         block_len_bits := none
         data := data }] }

/-- `Checkpointer::on_block_end`: update the in-flight row (the last
inserted one) with crc, uncompressed length and `block_len_bits`. -/
def Checkpointer.on_block_end (cp : Checkpointer) (curr_byte : Nat)
    (bit : Nat) (to_byte : Nat) (crc32 : Nat) : Checkpointer :=
  let curr_byte2 := if bit = 0 then curr_byte else curr_byte - 1
  let entire_block_size_bits :=
    dist_in_bits cp.emit_byte cp.emit_bit curr_byte2 bit
  let uncompressed_block_size := to_byte - cp.to_byte
  { cp with
    rows := cp.rows.dropLast ++
      ((cp.rows.getLast?).map (fun row =>
        [{ row with
            crc32 := some crc32
            len := some uncompressed_block_size
            block_len_bits := some entire_block_size_bits }])).getD [] }

/-! ## The Deflator state machine (`Deflator::state_transition`) -/

/-- The copy loop of the `NonCompressedBlock` arm: read `n` bytes, push
each into the window and emit it to the output. -/
def ncbCopy (r : ScryByteReader) (w : CircularBuffer) :
    Nat → Except ScryError (ScryByteReader × CircularBuffer × List Nat)
  | 0 => .ok (r, w, [])
  | n + 1 => do
    let (byte, r2) ← r.read_u8
    let (r3, w3, out) ← ncbCopy r2 (w.push byte) n
    .ok (r3, w3, byte :: out)

/-- One array write into `combined_cls`, bounds-checked as Rust does:
an index at or beyond 316 panics. -/
def clsWrite (a : Nat → Nat) (i v : Nat) : Except ScryError (Nat → Nat) :=
  if i < MAX_DISTANCE_CODES + MAX_SYMBOL_CODES then
    .ok (fun j => if j = i then v else a j)
  else .error .panicOutOfBounds

/-- The `for _ in 0..times_to_copy` repeat-write loop. -/
def clsWriteRun (a : Nat → Nat) (i v : Nat) :
    Nat → Except ScryError ((Nat → Nat) × Nat)
  | 0 => .ok (a, i)
  | t + 1 => do
    let a2 ← clsWrite a i v
    clsWriteRun a2 (i + 1) v t

/-- The loop reading `num_code_lengths` 3-bit values into the 19-entry
code-length array in `CODE_LENGTH_ORDER`. -/
def readClcs (r : ScryByteReader) (a : Nat → Nat) (i : Nat) :
    Nat → Except ScryError ((Nat → Nat) × ScryByteReader)
  | 0 => .ok (a, r)
  | c + 1 => do
    let (v, r2) ← r.read_n_bits_le 3
    readClcs r2
      (fun j => if j = CODE_LENGTH_ORDER.getD i 0 then v else a j) (i + 1) c

/-- The `while index < num_literals + num_dists` loop of
`PrepareDynamicBlock`.  Each iteration consumes at least one input bit,
so with fuel `bitsRemaining + 1` the `fuel = 0` branch is unreachable;
it is modelled as an `EOF` error, which is also what the next symbol
decode would produce with no input left. -/
def dynLoop (tree : HuffmanTree) (total : Nat) (a : Nat → Nat) (index : Nat)
    (r : ScryByteReader) : Nat → Except ScryError ((Nat → Nat) × ScryByteReader)
  | 0 => .error .eof
  | fuel + 1 =>
    if total ≤ index then .ok (a, r)
    else do
      let (symbol, r2) ← decodeSym tree r
      if symbol < 16 then do
        let a2 ← clsWrite a index symbol
        dynLoop tree total a2 (index + 1) r2 fuel
      else do
        let (to_copy, times_to_copy, r3) ←
          if symbol = 16 then
            if index = 0 then throw ScryError.invalidDynamicBlockCodeLength
            else do
              let (extra, r3) ← r2.read_n_bits_le 2
              pure (a (index - 1), 3 + extra, r3)
          else if symbol = 17 then do
            let (extra, r3) ← r2.read_n_bits_le 3
            pure (0, 3 + extra, r3)
          else if symbol = 18 then do
            let (extra, r3) ← r2.read_n_bits_le 7
            pure (0, 11 + extra, r3)
          else pure (0, 0, r2)
        let (a2, index2) ← clsWriteRun a index to_copy times_to_copy
        dynLoop tree total a2 index2 r3 fuel

/-- Remaining input bits (whole bytes plus the unread bits of the
buffered byte). -/
def ScryByteReader.bitsRemaining (r : ScryByteReader) : Nat :=
  r.input.length * 8 + (if r.current_bit = 0 then 0 else 8 - r.current_bit)

/-- The symbol loop of the `DecodeBlock` arm, bounded by the remaining
output space. -/
def decodeLoop (st dt : HuffmanTree) (r : ScryByteReader) (w : CircularBuffer) :
    Nat → Except ScryError
      (List Nat × ScryByteReader × CircularBuffer × List CheckpointEvent ×
        DeflatorState)
  | 0 => .ok ([], r, w, [], .decodeBlock st dt)
  | space + 1 => do
    let (symbol, r2) ← decodeSym st r
    if symbol < 256 then do
      let (out, r3, w3, evs, st3) ← decodeLoop st dt r2 (w.push symbol) space
      .ok (symbol :: out, r3, w3, evs, st3)
    else if symbol = 256 then
      let (crc, w2) := w.block_crc32
      .ok ([], r2, w2,
        [.blockEnd r2.current_byte r2.current_bit w2.get_bytes_written crc],
        .checkIfFinalBlock)
    else do
      let index := symbol - 257
      let len ←
        match BASE_LENGTHS.get? index with
        | some v => pure v
        | none => throw ScryError.panicOutOfBounds
      let len_bits ←
        match LENGTH_EXTRA_BITS.get? index with
        | some v => pure v
        | none => throw ScryError.panicOutOfBounds
      let (extra, r3) ← r2.read_n_bits_le len_bits
      let len := len + extra
      let (dist_symbol, r4) ← decodeSym dt r3
      let dist ←
        match BASE_DISTS.get? dist_symbol with
        | some v => pure v
        | none => throw ScryError.panicOutOfBounds
      let dist_bits ←
        match DIST_EXTRA_BITS.get? dist_symbol with
        | some v => pure v
        | none => throw ScryError.panicOutOfBounds
      let (dextra, r5) ← r4.read_n_bits_le dist_bits
      let dist := dist + dextra
      let w2 ← w.push_from_buffer dist len
      .ok ([], r5, w2, [], .writeLookback 0 len st dt)

/-- `Deflator::on_block_data_start`. -/
def Deflator.on_block_data_start_event (d : Deflator) : CheckpointEvent :=
  .blockDataStart d.reader.current_byte d.reader.current_bit
    d.buffer.get_normalized_buffer

/-- `Deflator::state_transition`: run one state of the decompressor,
returning the advanced machine and the bytes written into the caller's
buffer (a buffer of length `bufLen`). -/
def stateTransition (d : Deflator) (bufLen : Nat) :
    Except ScryError (Deflator × List Nat) :=
  match d.state with
  | .gzipHeader =>
    match read_header d.reader with
    | .ok (_, r2) => .ok ({ d with reader := r2, state := .blockHeader }, [])
    | .error e =>
      match e with
      | .expectedEOF => .ok ({ d with state := .done }, [])
      | _ => .error e
  | .blockHeader => do
    let ev1 := CheckpointEvent.blockStart d.reader.current_byte
      d.reader.current_bit d.buffer.get_bytes_written
    let (bh, r2) ← read_block_header d.reader
    let ev2 := CheckpointEvent.setBlockType bh.block_type
    let d2 := { d with
      reader := r2
      in_final_block := bh.is_final
      events := d.events ++ [ev1, ev2] }
    match bh.block_type with
    | .noCompression =>
      .ok ({ d2 with state := .prepareNonCompressedBlock }, [])
    | .dynamicHuffman =>
      .ok ({ d2 with state := .prepareDynamicBlock }, [])
    | .fixedHuffman =>
      let ev3 := d2.on_block_data_start_event
      .ok ({ d2 with
        events := d2.events ++ [ev3]
        state := .decodeBlock HuffmanTree.fixed HuffmanTree.fixed_dist }, [])
  | .prepareNonCompressedBlock => do
    let r := d.reader.discard_until_next_byte
    let (len, r) ← r.read_u16_le
    let (nlen, r) ← r.read_u16_le
    if nlen ≠ 65535 - len then
      throw (.invalidNonCompressedBlockHeader r.current_byte (65535 - len) nlen)
    else
      let d2 := { d with reader := r }
      let ev := d2.on_block_data_start_event
      .ok ({ d2 with
        events := d2.events ++ [ev]
        state := .nonCompressedBlock len }, [])
  | .nonCompressedBlock size => do
    let len := bufLen % 2 ^ 16
    let num_bytes := min size len
    let (r2, w2, out) ← ncbCopy d.reader d.buffer num_bytes
    let remaining_bytes := size - num_bytes
    let st2 := if remaining_bytes = 0 then DeflatorState.checkIfFinalBlock
      else DeflatorState.nonCompressedBlock remaining_bytes
    .ok ({ d with
      reader := r2
      buffer := w2
      state := st2 }, out)
  | .prepareDynamicBlock => do
    let (hlit, r) ← d.reader.read_n_bits_le 5
    let num_literals := hlit + 257
    let (hdist, r) ← r.read_n_bits_le 5
    let num_dists := hdist + 1
    let (hclen, r) ← r.read_n_bits_le 4
    let num_code_lengths := hclen + 4
    let (clArr, r) ← readClcs r (fun _ => 0) 0 num_code_lengths
    let cl_tree := HuffmanTree.new ((List.range 19).map clArr)
    let (combined, r) ← dynLoop cl_tree (num_literals + num_dists)
      (fun _ => 0) 0 r (r.bitsRemaining + 1)
    let symbol_tree := HuffmanTree.new ((List.range num_literals).map combined)
    let distance_tree := HuffmanTree.new
      ((List.range (MAX_DISTANCE_CODES + MAX_SYMBOL_CODES - num_literals)).map
        (fun k => combined (num_literals + k)))
    let d2 := { d with reader := r }
    let ev := d2.on_block_data_start_event
    .ok ({ d2 with
      events := d2.events ++ [ev]
      state := .decodeBlock symbol_tree distance_tree }, [])
  | .decodeBlock symbol_tree distance_tree => do
    let (out, r2, w2, evs, st2) ←
      decodeLoop symbol_tree distance_tree d.reader d.buffer bufLen
    .ok ({ d with
      reader := r2
      buffer := w2
      events := d.events ++ evs
      state := st2 }, out)
  | .writeLookback current len symbol_tree distance_tree =>
    let buf_len := bufLen % 2 ^ 16
    let num_bytes := min (len - current) buf_len
    let head := d.buffer.headBytes len
    let out := ((List.range num_bytes).map (fun k => head.getD (current + k) 0))
    let st2 := if current + num_bytes = len then
        DeflatorState.decodeBlock symbol_tree distance_tree
      else DeflatorState.writeLookback (current + num_bytes) len symbol_tree
        distance_tree
    .ok ({ d with state := st2 }, out)
  | .checkIfFinalBlock =>
    if d.in_final_block then .ok ({ d with state := .gzipFooter }, [])
    else .ok ({ d with state := .blockHeader }, [])
  | .gzipFooter => do
    let r := d.reader.discard_until_next_byte
    let (crc32_expected, w2) := d.buffer.crc32
    let (crc32v, r) ← r.read_u32_le
    if crc32_expected ≠ crc32v then
      throw (.invalidGZIPCRC r.current_byte crc32_expected crc32v)
    else do
      let (isize_expected, w3) := w2.counterTake
      let (isizev, r) ← r.read_u32_le
      if isize_expected ≠ isizev then
        throw (.invalidGZIPIsize r.current_byte isize_expected isizev)
      else
        .ok ({ d with
          reader := r
          buffer := w3
          state := .gzipHeader }, [])
  | .done => .ok ({ d with state := .done }, [])

/-- `Deflator::read_internal`: loop `state_transition` until at least one
byte is written or the machine is `Done`; `none` means the fuel ran out
before the loop finished. -/
def readLoop (bufLen : Nat) :
    Nat → Deflator → Option (Except ScryError (Deflator × List Nat))
  | 0, _ => none
  | fuel + 1, d =>
    match stateTransition d bufLen with
    | .error e => some (.error e)
    | .ok (d2, out) =>
      if d2.state.isDone then some (.ok (d2, out))
      else if out.length = 0 then readLoop bufLen fuel d2
      else some (.ok (d2, out))

/-- `read_internal` terminates on the given machine and buffer size. -/
def ReadTerminates (d : Deflator) (bufLen : Nat) : Prop :=
  ∃ fuel r, readLoop bufLen fuel d = some r

/-! ## Run-level helpers for concrete executions -/

def countBlockStarts (evs : List CheckpointEvent) : Nat :=
  evs.countP fun e => match e with
    | CheckpointEvent.blockStart _ _ _ => true
    | _ => false

def countSetBlockTypes (evs : List CheckpointEvent) : Nat :=
  evs.countP fun e => match e with
    | CheckpointEvent.setBlockType _ => true
    | _ => false

def countBlockDataStarts (evs : List CheckpointEvent) : Nat :=
  evs.countP fun e => match e with
    | CheckpointEvent.blockDataStart _ _ _ => true
    | _ => false

def countBlockEnds (evs : List CheckpointEvent) : Nat :=
  evs.countP fun e => match e with
    | CheckpointEvent.blockEnd _ _ _ _ => true
    | _ => false

/-- The checkpointer calls made while decoding `input` to completion. -/
def runEvents (input : List Nat) (bufLen fuel : Nat) : List CheckpointEvent :=
  match readLoop bufLen fuel (Deflator.new (ScryByteReader.new input) 0) with
  | some (.ok (d, _)) => d.events
  | _ => []

/-- Whether the decode of `input` ended in the `Done` state. -/
def runIsDone (input : List Nat) (bufLen fuel : Nat) : Bool :=
  match readLoop bufLen fuel (Deflator.new (ScryByteReader.new input) 0) with
  | some (.ok (d, _)) => d.state.isDone
  | _ => false

/-- A complete GZIP member holding a single stored (non-compressed) block
with zero data bytes: header, `BFINAL=1 BTYPE=00`, `LEN=0`, `NLEN=0xFFFF`,
`CRC32=0` (the CRC-32 of the empty string), `ISIZE=0`. -/
def c1StoredInput : List Nat :=
  [0x1f, 0x8b, 8, 0, 0, 0, 0, 0, 0, 3,
   0x01, 0x00, 0x00, 0xff, 0xff,
   0x00, 0x00, 0x00, 0x00] ++ [0x00, 0x00, 0x00, 0x00]

/-- A GZIP member whose stored block holds one byte (`LEN = 1`), cut off
before the footer; enough to drive the machine into the
`NonCompressedBlock` state with one byte pending. -/
def c7StoredInput : List Nat :=
  [0x1f, 0x8b, 8, 0, 0, 0, 0, 0, 0, 3,
   0x01, 0x01, 0x00, 0xfe, 0xff, 0x61]

/-- The bit stream of a dynamic block header with `HLIT = 31` (288
literal codes), `HDIST = 31` (32 distance codes), `HCLEN = 0` (4 code
lengths), code-length code lengths `{0 ↦ 1, 18 ↦ 1}`, followed by three
`18`-symbols with maximal repeat (138 zeros each): the third repeat walks
the write index from 276 past 315. -/
def c10DynInput : List Nat := [0xFF, 0x03, 0x90, 0xFC, 0xFF, 0xFF, 0x03]

/-- A machine sitting in `PrepareDynamicBlock` on that stream. -/
def c10Machine : Deflator :=
  { buffer := CircularBuffer.new THIRTY_TWO_KILOBYTES 0
    state := .prepareDynamicBlock
    in_final_block := true
    reader := ScryByteReader.new c10DynInput
    events := [] }

/-- The 4-byte little-endian value at offset 4 of the remaining input
(the ISIZE field a `GZIPFooter` transition reads), if present. -/
def isizeField (r : ScryByteReader) : Option Nat :=
  if 8 ≤ r.input.length then
    some ((r.input.drop 4).getD 0 0 + (r.input.drop 4).getD 1 0 * 256 +
      (r.input.drop 4).getD 2 0 * 65536 + (r.input.drop 4).getD 3 0 * 16777216)
  else none

/-- The error produced by one `state_transition`, if any (the `Deflator`
itself holds window functions and cannot be compared decidably). -/
def transitionErr (d : Deflator) (bufLen : Nat) : Option ScryError :=
  match stateTransition d bufLen with
  | .error e => some e
  | .ok _ => none

/-! ## Termination instrumentation for `read_internal` -/

/-- A rank on machine states: every transition that consumes no input
bit and emits no output strictly lowers it (`NonCompressedBlock 0 →
CheckIfFinalBlock`, `WriteLookback l l → DecodeBlock`,
`CheckIfFinalBlock → BlockHeader/GZIPFooter`). -/
def stateRank : DeflatorState → Nat
  | .done => 0
  | .nonCompressedBlock _ => 3
  | .checkIfFinalBlock => 2
  | .writeLookback _ _ _ _ => 2
  | _ => 1

/-- Termination measure for the `read_internal` driver loop: remaining
input bits (dominant) plus the state rank. -/
def deflatorMeasure (d : Deflator) : Nat :=
  d.reader.bitsRemaining * 4 + stateRank d.state

/-- Machine sanity, holding in every reachable machine: the bit cursor
is inside the current byte, and a pending lookback copy has not run past
its end. -/
def DeflatorInv (d : Deflator) : Prop :=
  d.reader.current_bit < 8 ∧
  ∀ c l st dt, d.state = .writeLookback c l st dt → c ≤ l

/-- One driver step with an empty output buffer (machine kept on error). -/
def c7step (d : Deflator) : Deflator :=
  match stateTransition d 0 with
  | .ok (d2, _) => d2
  | .error _ => d

/-- The machines reached from `c7StoredInput` after zero to three
transitions with an empty output buffer (GZIP header, block header and
stored-block header parsed; one stored byte pending). -/
def c7m0 : Deflator := Deflator.new (ScryByteReader.new c7StoredInput) 0

def c7m1 : Deflator := c7step c7m0

def c7m2 : Deflator := c7step c7m1

def c7m3 : Deflator := c7step c7m2

/-! ######################################################################
## Theorems
###################################################################### -/

/-! ## Claim C2: `push_from_buffer` distance validation -/

/-- C2 counterexample: the claim says `push_from_buffer(0, 1)` returns the
invalid-distance error and leaves the window unchanged.  In the code the
only check is `lookback > 32768`, so distance 0 is accepted and the window
is mutated (its byte counter advances from 1 to 2). -/
theorem c2_counterexample :
    (CircularBuffer.push_from_buffer ((CircularBuffer.new 8 0).push 5) 0 1).isOk = true ∧
    (match CircularBuffer.push_from_buffer ((CircularBuffer.new 8 0).push 5) 0 1 with
      | .ok w => w.bytesWritten
      | .error _ => 0) = 2 :=
  ⟨rfl, rfl⟩

/-- C2 (amended): `push_from_buffer(distance, length)` returns the
`InvalidLengthDistancePair` error if and only if `distance > 32768`;
in particular a call with `distance = 0` is accepted. -/
theorem c2_push_from_buffer_error_iff (w : CircularBuffer) (lookback size : Nat) :
    (CircularBuffer.push_from_buffer w lookback size =
      .error (.invalidLengthDistancePair lookback size)) ↔ 32768 < lookback := by
  unfold CircularBuffer.push_from_buffer
  split <;> simp [*]

/-! ## Window arithmetic lemmas -/

/-- Casting a `Nat` modulus computation through `Int`. -/
theorem natCast_emod_toNat (n s : Nat) :
    (((n : Nat) : Int) % ((s : Nat) : Int)).toNat = n % s := by
  rw [← Int.natCast_mod, Int.toNat_natCast]

/-- Normal form of the ring index `(H - d).rem_euclid s` used by both
`target` and `headBytes`. -/
theorem emod_sub_toNat (H d s : Nat) (hH : H < s) :
    (((H : Int) - (d : Int)) % ((s : Nat) : Int)).toNat = (H + (s - d % s)) % s := by
  have hs : 0 < s := Nat.lt_of_le_of_lt (Nat.zero_le _) hH
  have h1 : ((H : Int) - (d : Int)) % s = ((H : Int) - ((d % s : Nat) : Int)) % s := by
    conv_lhs => rw [Int.sub_emod]
    conv_rhs => rw [Int.sub_emod]
    rw [Int.natCast_mod, Int.emod_emod_of_dvd _ dvd_rfl]
  have h2 : ((H : Int) - ((d % s : Nat) : Int)) % s
      = (((H + (s - d % s)) : Nat) : Int) % s := by
    have hlt : d % s ≤ s := le_of_lt (Nat.mod_lt _ hs)
    have h3 : (((H + (s - d % s)) : Nat) : Int) = (H : Int) - ((d % s : Nat) : Int) + (s : Int) * 1 := by
      push_cast [Nat.cast_sub hlt]
      ring
    rw [h3, Int.add_mul_emod_self_left]
  rw [h1, h2, natCast_emod_toNat]

namespace CircularBuffer

theorem size_push (w : CircularBuffer) (b : Nat) : (w.push b).size = w.size := rfl

theorem head_push (w : CircularBuffer) (b : Nat) :
    (w.push b).head = (w.head + 1) % w.size := rfl

theorem buf_push (w : CircularBuffer) (b : Nat) :
    (w.push b).buf = fun i => if i = w.head then b else w.buf i := rfl

theorem gzipDigest_push (w : CircularBuffer) (b : Nat) :
    (w.push b).gzipDigest = w.gzipDigest ++ [b] := rfl

theorem blockDigest_push (w : CircularBuffer) (b : Nat) :
    (w.push b).blockDigest = w.blockDigest ++ [b] := rfl

theorem counter_push (w : CircularBuffer) (b : Nat) :
    (w.push b).counter = (w.counter + 1) % 2 ^ 32 := rfl

theorem bytesWritten_push (w : CircularBuffer) (b : Nat) :
    (w.push b).bytesWritten = w.bytesWritten + 1 := rfl

theorem size_pushAll (w : CircularBuffer) (bs : List Nat) :
    (w.pushAll bs).size = w.size := by
  induction bs generalizing w with
  | nil => rfl
  | cons b bs ih => simpa [pushAll, List.foldl_cons] using ih (w.push b)

theorem head_pushAll (w : CircularBuffer) (bs : List Nat) (hw : w.head < w.size) :
    (w.pushAll bs).head = (w.head + bs.length) % w.size := by
  induction bs generalizing w with
  | nil =>
    simpa [pushAll] using (Nat.mod_eq_of_lt hw).symm
  | cons b bs ih =>
    have hs : 0 < w.size := Nat.lt_of_le_of_lt (Nat.zero_le _) hw
    have h1 : (w.push b).head < (w.push b).size := by
      simpa [push] using Nat.mod_lt _ hs
    have := ih (w.push b) h1
    simp only [pushAll, List.foldl_cons] at this ⊢
    rw [this, head_push, size_push, Nat.mod_add_mod]
    congr 1
    simp only [List.length_cons]
    omega

theorem head_pushAll_lt (w : CircularBuffer) (bs : List Nat) (hw : w.head < w.size) :
    (w.pushAll bs).head < w.size := by
  have hs : 0 < w.size := Nat.lt_of_le_of_lt (Nat.zero_le _) hw
  rw [head_pushAll w bs hw]
  exact Nat.mod_lt _ hs

theorem pushAll_append (w : CircularBuffer) (bs cs : List Nat) :
    w.pushAll (bs ++ cs) = (w.pushAll bs).pushAll cs := by
  simp [pushAll, List.foldl_append]

theorem pushAll_snoc (w : CircularBuffer) (bs : List Nat) (a : Nat) :
    w.pushAll (bs ++ [a]) = (w.pushAll bs).push a := by
  simp [pushAll, List.foldl_append]

theorem gzipDigest_pushAll (w : CircularBuffer) (bs : List Nat) :
    (w.pushAll bs).gzipDigest = w.gzipDigest ++ bs := by
  induction bs generalizing w with
  | nil => simp [pushAll]
  | cons b bs ih =>
    simp only [pushAll, List.foldl_cons] at ih ⊢
    rw [ih (w.push b), gzipDigest_push]
    simp

theorem blockDigest_pushAll (w : CircularBuffer) (bs : List Nat) :
    (w.pushAll bs).blockDigest = w.blockDigest ++ bs := by
  induction bs generalizing w with
  | nil => simp [pushAll]
  | cons b bs ih =>
    simp only [pushAll, List.foldl_cons] at ih ⊢
    rw [ih (w.push b), blockDigest_push]
    simp

theorem bytesWritten_pushAll (w : CircularBuffer) (bs : List Nat) :
    (w.pushAll bs).bytesWritten = w.bytesWritten + bs.length := by
  induction bs generalizing w with
  | nil => simp [pushAll]
  | cons b bs ih =>
    simp only [pushAll, List.foldl_cons] at ih ⊢
    rw [ih (w.push b), bytesWritten_push]
    simp only [List.length_cons]
    omega

/-- The wrapping `u32` byte counter counts pushes modulo `2 ^ 32`. -/
theorem counter_pushAll (w : CircularBuffer) (bs : List Nat) (hw : w.counter < 2 ^ 32) :
    (w.pushAll bs).counter = (w.counter + bs.length) % 2 ^ 32 := by
  induction bs generalizing w with
  | nil => simpa [pushAll] using (Nat.mod_eq_of_lt hw).symm
  | cons b bs ih =>
    have h1 : (w.push b).counter < 2 ^ 32 := by
      simpa [push] using Nat.mod_lt _ (by norm_num)
    simp only [pushAll, List.foldl_cons] at ih ⊢
    rw [ih (w.push b) h1, counter_push, Nat.mod_add_mod]
    congr 1
    simp only [List.length_cons]
    omega

/-- If `H < s` and `1 ≤ m < s` then stepping `m` cells around the ring
moves away from `H`. -/
theorem add_mod_ne_self (H m s : Nat) (hH : H < s) (hm1 : 1 ≤ m) (hm2 : m < s) :
    (H + m) % s ≠ H := by
  intro h
  have h1 : (H + m) % s = (H + 0) % s := by
    rw [h, Nat.add_zero, Nat.mod_eq_of_lt hH]
  have h2 : m ≡ 0 [MOD s] := Nat.ModEq.add_left_cancel' H h1
  have h3 : s ∣ m := (Nat.modEq_zero_iff_dvd).mp h2
  have h4 : s ≤ m := Nat.le_of_dvd (by omega) h3
  omega

/-- Ring content: after pushing `bs`, reading `k` cells behind the head
(`1 ≤ k ≤ size`, `k ≤ bs.length`) returns the `k`-th most recent byte.
The index expression is the normal form produced by `emod_sub_toNat`. -/
theorem pushAll_buf_get (w : CircularBuffer) (bs : List Nat) (k : Nat)
    (hw : w.head < w.size) (hk1 : 1 ≤ k) (hks : k ≤ w.size) (hkb : k ≤ bs.length) :
    (w.pushAll bs).buf
        (((w.pushAll bs).head + (w.size - k % w.size)) % w.size) =
      bs.getD (bs.length - k) 0 := by
  induction bs using List.reverseRecOn generalizing k with
  | nil =>
    simp only [List.length_nil] at hkb
    omega
  | append_singleton bs a ih =>
    have hs : 0 < w.size := Nat.lt_of_le_of_lt (Nat.zero_le _) hw
    have hH1 : (w.pushAll bs).head < w.size := head_pushAll_lt w bs hw
    rw [pushAll_snoc, head_push, size_pushAll, buf_push]
    rcases Nat.eq_or_lt_of_le hk1 with h1 | h2
    · -- k = 1: the freshest byte is the one just written at the old head.
      have hk : k = 1 := h1.symm
      subst hk
      have hidx : (((w.pushAll bs).head + 1) % w.size
          + (w.size - 1 % w.size)) % w.size = (w.pushAll bs).head := by
        rw [Nat.mod_add_mod]
        rcases Nat.eq_or_lt_of_le hs with hone | htwo
        · -- size = 1: the only cell is 0.
          have h0 : w.size = 1 := hone.symm
          rw [h0] at hH1 ⊢
          simp only [Nat.mod_one]
          omega
        · have hmod : 1 % w.size = 1 := Nat.mod_eq_of_lt htwo
          rw [hmod]
          have harith : (w.pushAll bs).head + 1 + (w.size - 1)
              = (w.pushAll bs).head + w.size := by omega
          rw [harith, Nat.add_mod_right, Nat.mod_eq_of_lt hH1]
      rw [hidx]
      dsimp only
      rw [if_pos rfl]
      have hlen : (bs ++ [a]).length - 1 = bs.length := by simp
      rw [hlen]
      rw [List.getD_append_right _ _ _ _ (le_refl _)]
      simp
    · -- 2 ≤ k: the byte was written before the final push.
      have hk2 : 2 ≤ k := h2
      have hklen : k ≤ bs.length + 1 := by
        simpa using hkb
      -- normalize the index to the form used by the induction hypothesis
      have hidx : (((w.pushAll bs).head + 1) % w.size
          + (w.size - k % w.size)) % w.size =
          ((w.pushAll bs).head + (w.size - (k - 1) % w.size)) % w.size := by
        rw [Nat.mod_add_mod]
        rcases Nat.eq_or_lt_of_le hks with hkeq | hklt
        · -- k = size
          have hkeq2 : k = w.size := hkeq
          have hm0 : k % w.size = 0 := by rw [hkeq2, Nat.mod_self]
          have hm1 : (k - 1) % w.size = k - 1 := Nat.mod_eq_of_lt (by omega)
          rw [hm0, hm1]
          have harith : (w.pushAll bs).head + 1 + (w.size - 0)
              = ((w.pushAll bs).head + (w.size - (k - 1))) + w.size := by omega
          rw [harith, Nat.add_mod_right]
        · -- k < size
          have hm0 : k % w.size = k := Nat.mod_eq_of_lt hklt
          have hm1 : (k - 1) % w.size = k - 1 := Nat.mod_eq_of_lt (by omega)
          rw [hm0, hm1]
          congr 1
          omega
      rw [hidx]
      dsimp only
      -- the cell read is not the cell just written
      have hne : ((w.pushAll bs).head + (w.size - (k - 1) % w.size)) % w.size
          ≠ (w.pushAll bs).head := by
        have hm1 : (k - 1) % w.size = k - 1 := Nat.mod_eq_of_lt (by omega)
        rw [hm1]
        exact add_mod_ne_self _ _ _ hH1 (by omega) (by omega)
      rw [if_neg hne]
      rw [ih (k - 1) (by omega) (by omega) (by omega)]
      have hixeq : (bs ++ [a]).length - k = bs.length - (k - 1) := by
        simp only [List.length_append, List.length_cons, List.length_nil]
        omega
      rw [hixeq]
      have hlt : bs.length - (k - 1) < bs.length := by omega
      rw [List.getD_append _ _ _ _ hlt]


/-- Reading the `push_from_buffer` source cell after pushing a history
returns the byte written `d` positions earlier. -/
theorem pushAll_target_read (w : CircularBuffer) (bs : List Nat) (d : Nat)
    (hw : w.head < w.size) (hd1 : 1 ≤ d) (hds : d ≤ w.size) (hdb : d ≤ bs.length) :
    (w.pushAll bs).buf ((w.pushAll bs).target d) = bs.getD (bs.length - d) 0 := by
  unfold CircularBuffer.target
  rw [size_pushAll]
  rw [emod_sub_toNat _ _ _ (head_pushAll_lt w bs hw)]
  exact pushAll_buf_get w bs d hw hd1 hds hdb

/-- The `push_from_buffer` loop implements `lzExpand`. -/
theorem pushLoop_spec (w : CircularBuffer) (hist : List Nat) (d l : Nat)
    (hw : w.head < w.size) (hd1 : 1 ≤ d) (hds : d ≤ w.size) (hdh : d ≤ hist.length) :
    (w.pushAll hist).pushLoop d l = w.pushAll (hist ++ lzExpand hist d l) := by
  induction l generalizing hist with
  | zero => simp [pushLoop, lzExpand]
  | succ l ih =>
    rw [pushLoop, pushAll_target_read w hist d hw hd1 hds hdh, ← pushAll_snoc]
    rw [ih (hist ++ [hist.getD (hist.length - d) 0]) (by simp; omega)]
    rw [lzExpand]
    simp

theorem lzExpand_snoc_one (h : List Nat) (b : Nat) (n : Nat) :
    lzExpand (h ++ [b]) 1 n = List.replicate n b := by
  induction n generalizing h with
  | zero => rfl
  | succ n ih =>
    rw [lzExpand]
    have hb : (h ++ [b]).getD ((h ++ [b]).length - 1) 0 = b := by
      simp [List.getD_append_right]
    simp only [hb]
    rw [ih (h ++ [b])]
    simp [List.replicate_succ]

theorem getD_replicate_self (n i b : Nat) (h : i < n) :
    (List.replicate n b).getD i 0 = b := by
  induction n generalizing i with
  | zero => exact absurd h (Nat.not_lt_zero i)
  | succ m ih =>
    cases i with
    | zero => rfl
    | succ j =>
      rw [List.replicate_succ]
      exact ih j (by omega)

/-- `head(m)` after pushing a history returns the `m` most recent bytes,
oldest first. -/
theorem headBytes_pushAll (w : CircularBuffer) (bs : List Nat) (m : Nat)
    (hw : w.head < w.size) (hm1 : m ≤ w.size) (hmb : m ≤ bs.length) :
    (w.pushAll bs).headBytes m =
      (List.range m).map (fun i => bs.getD (bs.length - (m - i)) 0) := by
  unfold CircularBuffer.headBytes
  rw [size_pushAll]
  apply List.map_congr_left
  intro i hi
  have him : i < m := List.mem_range.mp hi
  rw [emod_sub_toNat _ _ _ (head_pushAll_lt w bs hw)]
  exact pushAll_buf_get w bs (m - i) hw (by omega) (by omega) (by omega)

end CircularBuffer

/-! ## Claim C5: `push_from_buffer` equals sequential history-reading pushes -/

/-- C5: on a 32 KiB window holding a pushed history `hist`, for any
distance `d ∈ [1, 32768]` with `d ≤ hist.length` (so that a byte written
`d` positions earlier exists) and any length `l` (`d ≤ l` allowed),
`push_from_buffer d l` equals `l` sequential pushes where each pushed byte
is the byte written `d` positions earlier at the moment of that push
(`lzExpand`); and after `push b` followed by `push_from_buffer 1 n`
(`n + 1 ≤ 32768`) the newest `n + 1` bytes of the window all equal `b`. -/
theorem c5_push_from_buffer_lz77 (h0 : Nat) (hist : List Nat) (d l b n : Nat)
    (hh0 : h0 < 32768) (hd1 : 1 ≤ d) (hd2 : d ≤ 32768) (hdh : d ≤ hist.length)
    (hn : n + 1 ≤ 32768) :
    (((CircularBuffer.new 32768 h0).pushAll hist).push_from_buffer d l
      = .ok ((CircularBuffer.new 32768 h0).pushAll (hist ++ lzExpand hist d l))) ∧
    (∀ w2, (((CircularBuffer.new 32768 h0).pushAll hist).push b).push_from_buffer 1 n
        = .ok w2 → w2.headBytes (n + 1) = List.replicate (n + 1) b) := by
  have hw : (CircularBuffer.new 32768 h0).head < (CircularBuffer.new 32768 h0).size := hh0
  have hsz : (CircularBuffer.new 32768 h0).size = 32768 := rfl
  constructor
  · unfold CircularBuffer.push_from_buffer
    rw [if_neg (by omega)]
    rw [CircularBuffer.pushLoop_spec _ hist d l hw hd1 (by rw [hsz]; omega) hdh]
  · intro w2 hw2
    unfold CircularBuffer.push_from_buffer at hw2
    rw [if_neg (by norm_num)] at hw2
    rw [← CircularBuffer.pushAll_snoc] at hw2
    rw [CircularBuffer.pushLoop_spec _ (hist ++ [b]) 1 n hw (by omega)
      (by rw [hsz]; omega) (by simp)] at hw2
    rw [CircularBuffer.lzExpand_snoc_one] at hw2
    injection hw2 with hw2e
    subst hw2e
    rw [CircularBuffer.headBytes_pushAll _ _ (n + 1) hw (by rw [hsz]; omega)
      (by simp only [List.length_append, List.length_replicate, List.length_cons,
            List.length_nil]; omega)]
    have hmap : ∀ i ∈ List.range (n + 1),
        ((hist ++ [b]) ++ List.replicate n b).getD
          (((hist ++ [b]) ++ List.replicate n b).length - (n + 1 - i)) 0 = b := by
      intro i hi
      have him : i < n + 1 := List.mem_range.mp hi
      have hlen : ((hist ++ [b]) ++ List.replicate n b).length
          = hist.length + 1 + n := by
        simp only [List.length_append, List.length_replicate, List.length_cons,
          List.length_nil]
        try omega
      rw [hlen]
      have hix : hist.length + 1 + n - (n + 1 - i) = hist.length + i := by omega
      rw [hix]
      rcases Nat.eq_zero_or_pos i with hz | hp
      · subst hz
        rw [List.getD_append _ _ _ _ (by
          simp only [List.length_append, List.length_cons, List.length_nil]
          omega)]
        rw [Nat.add_zero]
        rw [List.getD_append_right _ _ _ _ (le_refl _)]
        simp
      · rw [List.getD_append_right _ _ _ _ (by
          simp only [List.length_append, List.length_cons, List.length_nil]
          omega)]
        simp only [List.length_append, List.length_cons, List.length_nil]
        rw [show hist.length + i - (hist.length + (0 + 1)) = i - 1 by omega]
        exact CircularBuffer.getD_replicate_self n (i - 1) b (by omega)
    calc (List.range (n + 1)).map (fun i =>
            ((hist ++ [b]) ++ List.replicate n b).getD
              (((hist ++ [b]) ++ List.replicate n b).length - (n + 1 - i)) 0)
        = (List.range (n + 1)).map (fun _ => b) := List.map_congr_left hmap
      _ = List.replicate (n + 1) b := by
          rw [List.map_const']
          simp

/-- C5 witness at a concrete instance. -/
theorem c5_push_from_buffer_lz77_witness :
    (0 < 32768 ∧ 1 ≤ 1 ∧ (1 : Nat) ≤ 32768 ∧ 1 ≤ List.length [7] ∧ 2 + 1 ≤ 32768) ∧
    ((((CircularBuffer.new 32768 0).pushAll [7]).push_from_buffer 1 2
      = .ok ((CircularBuffer.new 32768 0).pushAll ([7] ++ lzExpand [7] 1 2))) ∧
    (∀ w2, (((CircularBuffer.new 32768 0).pushAll [7]).push 5).push_from_buffer 1 2
        = .ok w2 → w2.headBytes (2 + 1) = List.replicate (2 + 1) 5)) :=
  ⟨by norm_num,
   c5_push_from_buffer_lz77 0 [7] 1 2 5 2 (by norm_num) (by norm_num) (by norm_num)
     (by norm_num) (by norm_num)⟩

/-! ## Claim C9: the randomized starting head is unobservable -/

theorem rotEquiv_push (dl b : Nat) (w1 w2 : CircularBuffer)
    (h : RotEquiv dl w1 w2) : RotEquiv dl (w1.push b) (w2.push b) := by
  obtain ⟨hsz, hlt, hhd, hbuf, hg, hb, hc, hbw⟩ := h
  have hs : 0 < w1.size := Nat.lt_of_le_of_lt (Nat.zero_le _) hlt
  refine ⟨by rw [CircularBuffer.size_push, CircularBuffer.size_push, hsz],
    by rw [CircularBuffer.size_push, CircularBuffer.head_push]
       exact Nat.mod_lt _ hs, ?hd2, ?bf2, ?gz2, ?bk2, ?ct2, ?bw2⟩
  · rw [CircularBuffer.size_push, CircularBuffer.head_push,
      CircularBuffer.head_push, hsz, hhd, Nat.mod_add_mod, Nat.mod_add_mod]
    congr 1
    omega
  · intro i hi
    rw [CircularBuffer.size_push] at hi ⊢
    rw [CircularBuffer.buf_push, CircularBuffer.buf_push]
    dsimp only
    rcases Decidable.eq_or_ne i w1.head with hih | hih
    · subst hih
      rw [if_pos rfl, if_pos (by rw [hhd])]
    · rw [if_neg hih, if_neg ?hne]
      · exact hbuf i hi
      · intro hcontra
        rw [hhd] at hcontra
        have hmeq : i ≡ w1.head [MOD w1.size] :=
          Nat.ModEq.add_right_cancel' dl (by
            unfold Nat.ModEq
            simpa using hcontra)
        have : i = w1.head := by
          have h1 := hmeq
          unfold Nat.ModEq at h1
          rw [Nat.mod_eq_of_lt hi, Nat.mod_eq_of_lt hlt] at h1
          exact h1
        exact hih this
  · rw [CircularBuffer.gzipDigest_push, CircularBuffer.gzipDigest_push, hg]
  · rw [CircularBuffer.blockDigest_push, CircularBuffer.blockDigest_push, hb]
  · rw [CircularBuffer.counter_push, CircularBuffer.counter_push, hc]
  · rw [CircularBuffer.bytesWritten_push, CircularBuffer.bytesWritten_push, hbw]

/-- The two related windows read equal bytes at corresponding ring
offsets. -/
theorem rotEquiv_read (dl d : Nat) (w1 w2 : CircularBuffer)
    (h : RotEquiv dl w1 w2) : w2.buf (w2.target d) = w1.buf (w1.target d) := by
  obtain ⟨hsz, hlt, hhd, hbuf, -, -, -, -⟩ := h
  have hs : 0 < w1.size := Nat.lt_of_le_of_lt (Nat.zero_le _) hlt
  have hlt2 : w2.head < w2.size := by
    rw [hsz, hhd]
    exact Nat.mod_lt _ hs
  unfold CircularBuffer.target
  rw [emod_sub_toNat _ _ _ hlt, emod_sub_toNat _ _ _ hlt2, hsz, hhd]
  have ht1 : (w1.head + (w1.size - d % w1.size)) % w1.size < w1.size :=
    Nat.mod_lt _ hs
  have hidx : ((w1.head + dl) % w1.size + (w1.size - d % w1.size)) % w1.size
      = (((w1.head + (w1.size - d % w1.size)) % w1.size) + dl) % w1.size := by
    rw [Nat.mod_add_mod, Nat.mod_add_mod]
    congr 1
    omega
  rw [hidx]
  exact hbuf _ ht1

theorem rotEquiv_pushLoop (dl d : Nat) (w1 w2 : CircularBuffer)
    (h : RotEquiv dl w1 w2) (l : Nat) :
    RotEquiv dl (w1.pushLoop d l) (w2.pushLoop d l) := by
  induction l generalizing w1 w2 with
  | zero => exact h
  | succ l ih =>
    rw [CircularBuffer.pushLoop, CircularBuffer.pushLoop]
    have hr := rotEquiv_read dl d w1 w2 h
    rw [hr]
    exact ih _ _ (rotEquiv_push dl _ w1 w2 h)

theorem rotEquiv_applyOp (dl : Nat) (w1 w2 : CircularBuffer)
    (h : RotEquiv dl w1 w2) (op : WindowOp) :
    RotEquiv dl (applyOp w1 op) (applyOp w2 op) := by
  cases op with
  | push b => exact rotEquiv_push dl b w1 w2 h
  | pushFromBuffer d l =>
    simp only [applyOp, CircularBuffer.push_from_buffer]
    rcases Decidable.em (32768 < d) with hd | hd
    · simp only [if_pos hd]
      exact h
    · simp only [if_neg hd]
      exact rotEquiv_pushLoop dl d w1 w2 h l

theorem rotEquiv_applyOps (dl : Nat) (w1 w2 : CircularBuffer)
    (h : RotEquiv dl w1 w2) (ops : List WindowOp) :
    RotEquiv dl (applyOps w1 ops) (applyOps w2 ops) := by
  induction ops generalizing w1 w2 with
  | nil => exact h
  | cons op ops ih =>
    exact ih _ _ (rotEquiv_applyOp dl w1 w2 h op)

theorem rotEquiv_new (s h0 h1 : Nat) (hh0 : h0 < s) (hh1 : h1 < s) :
    RotEquiv ((h1 + s - h0) % s) (CircularBuffer.new s h0) (CircularBuffer.new s h1) := by
  refine ⟨rfl, hh0, ?_, fun i _ => rfl, rfl, rfl, rfl, rfl⟩
  show h1 = (h0 + (h1 + s - h0) % s) % s
  rw [Nat.add_mod_mod]
  rw [show h0 + (h1 + s - h0) = h1 + s by omega, Nat.add_mod_right,
    Nat.mod_eq_of_lt hh1]

theorem rotEquiv_headBytes (dl : Nat) (w1 w2 : CircularBuffer)
    (h : RotEquiv dl w1 w2) (n : Nat) : w2.headBytes n = w1.headBytes n := by
  obtain ⟨hsz, hlt, hhd, hbuf, -, -, -, -⟩ := h
  have hs : 0 < w1.size := Nat.lt_of_le_of_lt (Nat.zero_le _) hlt
  have hlt2 : w2.head < w1.size := by
    rw [hhd]
    exact Nat.mod_lt _ hs
  unfold CircularBuffer.headBytes
  rw [hsz]
  apply List.map_congr_left
  intro i hi
  rw [emod_sub_toNat _ _ _ hlt, emod_sub_toNat _ _ _ hlt2, hhd]
  have ht1 : (w1.head + (w1.size - (n - i) % w1.size)) % w1.size < w1.size :=
    Nat.mod_lt _ hs
  have hidx : ((w1.head + dl) % w1.size + (w1.size - (n - i) % w1.size)) % w1.size
      = (((w1.head + (w1.size - (n - i) % w1.size)) % w1.size) + dl) % w1.size := by
    rw [Nat.mod_add_mod, Nat.mod_add_mod]
    congr 1
    omega
  rw [hidx]
  exact hbuf _ ht1

/-- C9: two windows created with different (e.g. randomized) initial head
positions, fed the same sequence of `push` / `push_from_buffer`
operations, are indistinguishable through the public interface:
`head(n)` for every `n`, `get_normalized_buffer`, both CRC-32 digests,
the wrapping byte counter, and the total byte count all agree. -/
theorem c9_initial_head_unobservable (s h0 h1 : Nat) (ops : List WindowOp)
    (hh0 : h0 < s) (hh1 : h1 < s) :
    (∀ n, (applyOps (CircularBuffer.new s h1) ops).headBytes n
        = (applyOps (CircularBuffer.new s h0) ops).headBytes n) ∧
    (applyOps (CircularBuffer.new s h1) ops).get_normalized_buffer
      = (applyOps (CircularBuffer.new s h0) ops).get_normalized_buffer ∧
    ((applyOps (CircularBuffer.new s h1) ops).crc32).1
      = ((applyOps (CircularBuffer.new s h0) ops).crc32).1 ∧
    ((applyOps (CircularBuffer.new s h1) ops).block_crc32).1
      = ((applyOps (CircularBuffer.new s h0) ops).block_crc32).1 ∧
    ((applyOps (CircularBuffer.new s h1) ops).counterTake).1
      = ((applyOps (CircularBuffer.new s h0) ops).counterTake).1 ∧
    (applyOps (CircularBuffer.new s h1) ops).get_bytes_written
      = (applyOps (CircularBuffer.new s h0) ops).get_bytes_written := by
  have h := rotEquiv_applyOps _ _ _ (rotEquiv_new s h0 h1 hh0 hh1) ops
  obtain ⟨hsz, hlt, hhd, hbuf, hg, hb, hc, hbw⟩ := h
  refine ⟨fun n => rotEquiv_headBytes _ _ _
      ⟨hsz, hlt, hhd, hbuf, hg, hb, hc, hbw⟩ n, ?_, ?_, ?_, ?_, ?_⟩
  · unfold CircularBuffer.get_normalized_buffer
    rw [hsz]
    exact rotEquiv_headBytes _ _ _ ⟨hsz, hlt, hhd, hbuf, hg, hb, hc, hbw⟩ _
  · unfold CircularBuffer.crc32
    rw [hg]
  · unfold CircularBuffer.block_crc32
    rw [hb]
  · exact hc
  · exact hbw

/-- C9 witness at a concrete instance. -/
theorem c9_initial_head_unobservable_witness :
    ((0 : Nat) < 8 ∧ (5 : Nat) < 8) ∧
    ((∀ n, (applyOps (CircularBuffer.new 8 5) [.push 1, .push 2, .pushFromBuffer 1 3]).headBytes n
        = (applyOps (CircularBuffer.new 8 0) [.push 1, .push 2, .pushFromBuffer 1 3]).headBytes n) ∧
    (applyOps (CircularBuffer.new 8 5) [.push 1, .push 2, .pushFromBuffer 1 3]).get_normalized_buffer
      = (applyOps (CircularBuffer.new 8 0) [.push 1, .push 2, .pushFromBuffer 1 3]).get_normalized_buffer ∧
    ((applyOps (CircularBuffer.new 8 5) [.push 1, .push 2, .pushFromBuffer 1 3]).crc32).1
      = ((applyOps (CircularBuffer.new 8 0) [.push 1, .push 2, .pushFromBuffer 1 3]).crc32).1 ∧
    ((applyOps (CircularBuffer.new 8 5) [.push 1, .push 2, .pushFromBuffer 1 3]).block_crc32).1
      = ((applyOps (CircularBuffer.new 8 0) [.push 1, .push 2, .pushFromBuffer 1 3]).block_crc32).1 ∧
    ((applyOps (CircularBuffer.new 8 5) [.push 1, .push 2, .pushFromBuffer 1 3]).counterTake).1
      = ((applyOps (CircularBuffer.new 8 0) [.push 1, .push 2, .pushFromBuffer 1 3]).counterTake).1 ∧
    (applyOps (CircularBuffer.new 8 5) [.push 1, .push 2, .pushFromBuffer 1 3]).get_bytes_written
      = (applyOps (CircularBuffer.new 8 0) [.push 1, .push 2, .pushFromBuffer 1 3]).get_bytes_written) :=
  ⟨by norm_num,
   c9_initial_head_unobservable 8 0 5 [.push 1, .push 2, .pushFromBuffer 1 3]
     (by norm_num) (by norm_num)⟩

/-! ## Claim C3: canonical Huffman construction and lookup -/

theorem symCount_zero (L : List Nat) : symCount L 0 = 0 := rfl

theorem canonicalNextCode_succ (L : List Nat) (len : Nat) :
    canonicalNextCode L (len + 1)
      = (canonicalNextCode L len + symCount L len) * 2 := rfl

/-- Partial-sum identity for the canonical code counters. -/
theorem canonicalNextCode_mul_pow (L : List Nat) (len : Nat) (h : len ≤ 15) :
    (canonicalNextCode L len + symCount L len) * 2 ^ (15 - len)
      = ∑ j ∈ Finset.range (len + 1), symCount L j * 2 ^ (15 - j) := by
  induction len with
  | zero => simp [canonicalNextCode]
  | succ n ih =>
    rw [Finset.sum_range_succ, ← ih (by omega), canonicalNextCode_succ]
    have hpow : 2 ^ (15 - n) = 2 * 2 ^ (15 - (n + 1)) := by
      rw [← pow_succ']
      congr 1
      omega
    rw [hpow]
    ring

/-- The Kraft sum equals the counted form. -/
theorem kraft_sum_counts (L : List Nat) (hL : ∀ x ∈ L, x ≤ 15) :
    ((L.filter (fun x => x != 0)).map (fun x => 2 ^ (15 - x))).sum
      = ∑ j ∈ Finset.range 16, symCount L j * 2 ^ (15 - j) := by
  induction L with
  | nil => simp [symCount]
  | cons a L ih =>
    have hL2 : ∀ x ∈ L, x ≤ 15 := fun x hx => hL x (List.mem_cons_of_mem _ hx)
    rcases Nat.eq_zero_or_pos a with ha | ha
    · subst ha
      have hcnt : ∀ j, symCount (0 :: L) j = symCount L j := by
        intro j
        unfold symCount
        rcases Decidable.eq_or_ne j 0 with hj | hj
        · simp [hj]
        · rw [if_neg hj, if_neg hj, List.countP_cons]
          simp [Ne.symm hj]
      simp only [hcnt]
      rw [← ih hL2]
      simp
    · have hcnt : ∀ j, symCount (a :: L) j
          = symCount L j + (if j = a then 1 else 0) := by
        intro j
        unfold symCount
        rcases Decidable.eq_or_ne j 0 with hj | hj
        · subst hj
          simp only [if_pos rfl]
          rw [if_neg (by omega : ¬(0 : Nat) = a)]
          simp
        · rw [if_neg hj, if_neg hj, List.countP_cons]
          rcases Decidable.eq_or_ne j a with hja | hja
          · simp [hja]
          · simp [Ne.symm hja, hja]
      simp only [hcnt]
      have hsplit : ∑ j ∈ Finset.range 16,
          (symCount L j + if j = a then 1 else 0) * 2 ^ (15 - j)
          = (∑ j ∈ Finset.range 16, symCount L j * 2 ^ (15 - j))
            + ∑ j ∈ Finset.range 16, (if j = a then 1 else 0) * 2 ^ (15 - j) := by
        rw [← Finset.sum_add_distrib]
        apply Finset.sum_congr rfl
        intro j hj
        ring
      rw [hsplit, ← ih hL2]
      have hmem : a ∈ Finset.range 16 :=
        Finset.mem_range.mpr (by
          have := hL a (List.mem_cons_self _ _)
          omega)
      have hite : ∑ j ∈ Finset.range 16,
          (if j = a then 1 else 0) * 2 ^ (15 - j) = 2 ^ (15 - a) := by
        have hstep : ∀ j ∈ Finset.range 16,
            (if j = a then 1 else 0) * 2 ^ (15 - j)
              = if j = a then 2 ^ (15 - j) else 0 := by
          intro j hj
          split <;> ring
        rw [Finset.sum_congr rfl hstep, Finset.sum_ite_eq' (Finset.range 16) a
          (fun j => 2 ^ (15 - j)), if_pos hmem]
      rw [hite]
      have hfil : (a :: L).filter (fun x => x != 0)
          = a :: L.filter (fun x => x != 0) := by
        rw [List.filter_cons]
        simp [Nat.pos_iff_ne_zero.mp ha]
      rw [hfil]
      simp only [List.map_cons, List.sum_cons]
      omega

/-- Under Kraft validity the canonical counters stay within the code
space of their length. -/
theorem canonicalNextCode_bound (L : List Nat) (hK : KraftValid L)
    (len : Nat) (h : len ≤ 15) :
    canonicalNextCode L len + symCount L len ≤ 2 ^ len := by
  obtain ⟨hL, hsum⟩ := hK
  have h1 := canonicalNextCode_mul_pow L len h
  have h2 : ∑ j ∈ Finset.range (len + 1), symCount L j * 2 ^ (15 - j)
      ≤ ∑ j ∈ Finset.range 16, symCount L j * 2 ^ (15 - j) :=
    Finset.sum_le_sum_of_subset (Finset.range_subset.mpr (by omega))
  have h3 : (canonicalNextCode L len + symCount L len) * 2 ^ (15 - len)
      ≤ 2 ^ 15 := by
    rw [h1]
    calc _ ≤ ∑ j ∈ Finset.range 16, symCount L j * 2 ^ (15 - j) := h2
      _ = _ := (kraft_sum_counts L hL).symm
      _ ≤ 2 ^ 15 := hsum
  have hsplit : (2 : Nat) ^ 15 = 2 ^ len * 2 ^ (15 - len) := by
    rw [← pow_add]
    congr 1
    omega
  rw [hsplit] at h3
  exact Nat.le_of_mul_le_mul_right h3 (Nat.pos_pow_of_pos _ (by norm_num))

/-- The counter ranges of different lengths are separated: everything at
length `len` lies below the first code of any greater length (scaled). -/
theorem canonicalNextCode_mono (L : List Nat) (len len2 : Nat)
    (h : len < len2) :
    (canonicalNextCode L len + symCount L len) * 2 ^ (len2 - len)
      ≤ canonicalNextCode L len2 := by
  induction len2 with
  | zero => omega
  | succ n ih =>
    rcases Nat.lt_or_ge len n with hlt | hge
    · have h1 := ih hlt
      have h2 : canonicalNextCode L n * 2 ≤ canonicalNextCode L (n + 1) := by
        rw [canonicalNextCode_succ]
        have : canonicalNextCode L n ≤ canonicalNextCode L n + symCount L n :=
          Nat.le_add_right _ _
        exact Nat.mul_le_mul_right 2 this
      have hpow : 2 ^ (n + 1 - len) = 2 ^ (n - len) * 2 := by
        rw [← pow_succ]
        congr 1
        omega
      calc (canonicalNextCode L len + symCount L len) * 2 ^ (n + 1 - len)
          = ((canonicalNextCode L len + symCount L len) * 2 ^ (n - len)) * 2 := by
            rw [hpow, Nat.mul_assoc]
        _ ≤ canonicalNextCode L n * 2 := Nat.mul_le_mul_right 2 h1
        _ ≤ canonicalNextCode L (n + 1) := h2
    · have hlen : len = n := by omega
      subst hlen
      rw [canonicalNextCode_succ]
      have : len + 1 - len = 1 := by omega
      rw [this, pow_one]

/-- Under Kraft validity `bl_count` never truncates. -/
theorem blCount_eq_symCount (L : List Nat) (hK : KraftValid L)
    (len : Nat) (h : len ≤ 15) : blCount L len = symCount L len := by
  rcases Decidable.eq_or_ne len 0 with h0 | h0
  · subst h0
    rfl
  · unfold blCount symCount
    rw [if_neg h0, if_neg h0]
    apply Nat.mod_eq_of_lt
    have h1 : symCount L len ≤ 2 ^ len := by
      have := canonicalNextCode_bound L hK len h
      omega
    have h2 : symCount L len = L.countP (fun x => x == len) := by
      unfold symCount
      rw [if_neg h0]
    calc L.countP (fun x => x == len) = symCount L len := h2.symm
      _ ≤ 2 ^ len := h1
      _ < 2 ^ 16 := by
        exact Nat.lt_of_le_of_lt (Nat.pow_le_pow_right (by norm_num) h)
          (by norm_num)

/-- Under Kraft validity the `u16` `next_code` computation never wraps
and equals the canonical one. -/
theorem nextCodeFn_eq_canonical (L : List Nat) (hK : KraftValid L)
    (len : Nat) (h : len ≤ 15) :
    nextCodeFn L len = canonicalNextCode L len := by
  induction len with
  | zero => rfl
  | succ n ih =>
    unfold nextCodeFn
    rw [ih (by omega), blCount_eq_symCount L hK n (by omega),
      canonicalNextCode_succ]
    apply Nat.mod_eq_of_lt
    have h1 := canonicalNextCode_bound L hK n (by omega)
    have h2 : (canonicalNextCode L n + symCount L n) * 2 ≤ 2 ^ (n + 1) := by
      rw [pow_succ]
      exact Nat.mul_le_mul_right 2 h1
    have h3 : (2 : Nat) ^ (n + 1) ≤ 2 ^ 15 := Nat.pow_le_pow_right (by norm_num) h
    omega

theorem symCount_append (A B : List Nat) (len : Nat) :
    symCount (A ++ B) len = symCount A len + symCount B len := by
  unfold symCount
  rcases Decidable.eq_or_ne len 0 with h0 | h0
  · simp [h0]
  · rw [if_neg h0, if_neg h0, if_neg h0, List.countP_append]

theorem symCount_singleton (x len : Nat) :
    symCount [x] len = if 0 < len ∧ x = len then 1 else 0 := by
  unfold symCount
  rcases Decidable.eq_or_ne len 0 with h0 | h0
  · subst h0
    simp
  · rw [if_neg h0, List.countP_singleton]
    rcases Decidable.eq_or_ne x len with hx | hx
    · simp [hx, Nat.pos_of_ne_zero h0]
    · simp [hx]

theorem symCount_take_succ (L : List Nat) (i len : Nat) (hi : i < L.length) :
    symCount (L.take (i + 1)) len
      = symCount (L.take i) len
        + (if 0 < len ∧ L.getD i 0 = len then 1 else 0) := by
  rw [List.take_succ]
  rw [List.getElem?_eq_getElem hi]
  have hx : L[i] = L.getD i 0 := (List.getD_eq_getElem L 0 hi).symm
  rw [show (some L[i]).toList = [L[i]] from rfl, hx, symCount_append,
    symCount_singleton]

/-- A prefix counts no more occurrences than the whole list. -/
theorem symCount_take_le (L : List Nat) (i len : Nat) :
    symCount (L.take i) len ≤ symCount L len := by
  have h : L = L.take i ++ L.drop i := (List.take_append_drop i L).symm
  calc symCount (L.take i) len
      ≤ symCount (L.take i) len + symCount (L.drop i) len := Nat.le_add_right _ _
    _ = symCount (L.take i ++ L.drop i) len := (symCount_append _ _ _).symm
    _ = symCount L len := by rw [← h]

/-- Strict version: a prefix that stops before an occurrence of `len`
counts strictly fewer occurrences. -/
theorem symCount_take_lt (L : List Nat) (i : Nat) (hi : i < L.length)
    (hlen : 0 < L.getD i 0) :
    symCount (L.take i) (L.getD i 0) < symCount L (L.getD i 0) := by
  have h1 := symCount_take_succ L i (L.getD i 0) hi
  rw [if_pos ⟨hlen, rfl⟩] at h1
  have h2 := symCount_take_le L (i + 1) (L.getD i 0)
  omega

/-- Two prefix counts at the same length are ordered when an occurrence
separates them. -/
theorem symCount_take_mono (L : List Nat) (i j : Nat) (hij : i < j)
    (hj : j ≤ L.length) (len : Nat) (hlen : 0 < len) (hi : L.getD i 0 = len) :
    symCount (L.take i) len + 1 ≤ symCount (L.take j) len := by
  have hiL : i < L.length := by omega
  have h1 := symCount_take_succ L i len hiL
  rw [if_pos ⟨hlen, hi⟩] at h1
  have h2 : symCount (L.take (i + 1)) len ≤ symCount (L.take j) len := by
    have hsplit : L.take j = L.take (i + 1) ++ (L.drop (i + 1)).take (j - (i + 1)) := by
      rw [← List.take_add]
      congr 1
      omega
    rw [hsplit, symCount_append]
    exact Nat.le_add_right _ _
  omega

theorem assignCodes_length (nc : Nat → Nat) (ls : List Nat) :
    (assignCodes nc ls).length = ls.length := by
  induction ls generalizing nc with
  | nil => rfl
  | cons len rest ih =>
    unfold assignCodes
    split <;> simp [ih]

/-- The assignment loop hands symbol `j` (of positive length) the
canonical code: `next_code` of its length at loop entry plus one per
earlier same-length symbol.  `pre` is the already-processed prefix. -/
theorem assignCodes_getD (L : List Nat) (hK : KraftValid L) :
    ∀ (suf pre : List Nat) (nc : Nat → Nat),
      L = pre ++ suf →
      (∀ len, 1 ≤ len → len ≤ 15 →
        nc len = canonicalNextCode L len + symCount pre len) →
      ∀ j, j < suf.length → 0 < suf.getD j 0 →
        (assignCodes nc suf).getD j 0
          = canonicalNextCode L (suf.getD j 0)
            + symCount (pre ++ suf.take j) (suf.getD j 0) := by
  intro suf
  induction suf with
  | nil =>
    intro pre nc hsplit hnc j hj hpos
    simp at hj
  | cons len rest ih =>
    intro pre nc hsplit hnc j hj hpos
    have hlen15 : len ≤ 15 := by
      have hmem : len ∈ L := by
        rw [hsplit]
        exact List.mem_append_right _ (List.mem_cons_self _ _)
      exact hK.1 _ hmem
    unfold assignCodes
    rcases Decidable.eq_or_ne len 0 with h0 | h0
    · subst h0
      rw [if_pos rfl]
      cases j with
      | zero => simp at hpos
      | succ j2 =>
        have hg : ((0 : Nat) :: assignCodes nc rest).getD (j2 + 1) 0
            = (assignCodes nc rest).getD j2 0 := rfl
        rw [hg]
        have hnc2 : ∀ l, 1 ≤ l → l ≤ 15 →
            nc l = canonicalNextCode L l + symCount (pre ++ [0]) l := by
          intro l h1 h15
          rw [symCount_append, symCount_singleton,
            if_neg (by omega : ¬(0 < l ∧ (0 : Nat) = l))]
          rw [hnc l h1 h15]
          omega
        have hrec := ih (pre ++ [0]) nc (by rw [hsplit]; simp) hnc2 j2
          (by simp at hj; omega) (by simpa using hpos)
        rw [hrec]
        have hgd : ((0 : Nat) :: rest).getD (j2 + 1) 0 = rest.getD j2 0 := rfl
        rw [hgd]
        congr 1
        rw [show ((0 : Nat) :: rest).take (j2 + 1) = 0 :: rest.take j2 from rfl]
        rw [show pre ++ (0 : Nat) :: rest.take j2 = (pre ++ [0]) ++ rest.take j2 by simp]
    · rw [if_neg h0]
      cases j with
      | zero =>
        have hg : (nc len :: assignCodes
            (fun l => if l = len then (nc len + 1) % 2 ^ 16 else nc l) rest).getD 0 0
            = nc len := rfl
        rw [hg, hnc len (by omega) hlen15]
        have hgd : (len :: rest).getD 0 0 = len := rfl
        rw [hgd]
        congr 1
        rw [show (len :: rest).take 0 = [] from rfl]
        simp
      | succ j2 =>
        have hg : (nc len :: assignCodes
              (fun l => if l = len then (nc len + 1) % 2 ^ 16 else nc l) rest).getD
            (j2 + 1) 0
            = (assignCodes
              (fun l => if l = len then (nc len + 1) % 2 ^ 16 else nc l) rest).getD
              j2 0 := rfl
        rw [hg]
        have hcnt1 : symCount pre len + 1 ≤ symCount L len := by
          have : symCount L len = symCount pre len + symCount (len :: rest) len := by
            rw [hsplit, symCount_append]
          have h2 : 1 ≤ symCount (len :: rest) len := by
            rw [show len :: rest = [len] ++ rest from rfl, symCount_append,
              symCount_singleton, if_pos ⟨by omega, rfl⟩]
            omega
          omega
        have hbound : canonicalNextCode L len + symCount pre len + 1 < 2 ^ 16 := by
          have h1 := canonicalNextCode_bound L hK len hlen15
          have h2 : (2 : Nat) ^ len ≤ 2 ^ 15 :=
            Nat.pow_le_pow_right (by norm_num) hlen15
          omega
        have hnc2 : ∀ l, 1 ≤ l → l ≤ 15 →
            (fun l => if l = len then (nc len + 1) % 2 ^ 16 else nc l) l
              = canonicalNextCode L l + symCount (pre ++ [len]) l := by
          intro l h1 h15
          dsimp only
          rcases Decidable.eq_or_ne l len with hl | hl
          · subst hl
            rw [if_pos rfl, hnc l h1 h15]
            rw [Nat.mod_eq_of_lt (by omega)]
            rw [symCount_append, symCount_singleton, if_pos ⟨by omega, rfl⟩]
            omega
          · rw [if_neg hl, hnc l h1 h15, symCount_append, symCount_singleton,
              if_neg (by omega : ¬(0 < l ∧ len = l))]
            omega
        have hrec := ih (pre ++ [len])
          (fun l => if l = len then (nc len + 1) % 2 ^ 16 else nc l)
          (by rw [hsplit]; simp) hnc2 j2 (by simp at hj; omega)
          (by simpa using hpos)
        rw [hrec]
        have hgd : (len :: rest).getD (j2 + 1) 0 = rest.getD j2 0 := rfl
        rw [hgd]
        congr 1
        rw [show (len :: rest).take (j2 + 1) = len :: rest.take j2 from rfl]
        rw [show pre ++ len :: rest.take j2 = (pre ++ [len]) ++ rest.take j2 by simp]

/-- The codes written by `HuffmanTree::new` are the canonical RFC 1951
codes (at positions of positive length). -/
theorem assignCodes_canonical (L : List Nat) (hK : KraftValid L)
    (j : Nat) (hj : j < L.length) (hpos : 0 < L.getD j 0) :
    (assignCodes (nextCodeFn L) L).getD j 0 = canonicalCode L j := by
  have h := assignCodes_getD L hK L [] (nextCodeFn L) rfl
    (fun len h1 h15 => by
      rw [nextCodeFn_eq_canonical L hK len h15]
      rw [show symCount [] len = 0 from by
        unfold symCount
        split <;> simp]
      omega) j hj hpos
  rw [h]
  unfold canonicalCode
  simp

/-- The canonical code is at least the first code of its length. -/
theorem canonicalCode_ge (L : List Nat) (i : Nat) :
    canonicalNextCode L (L.getD i 0) ≤ canonicalCode L i :=
  Nat.le_add_right _ _

/-- The canonical code is below the end of its length range. -/
theorem canonicalCode_lt (L : List Nat) (i : Nat) (hi : i < L.length)
    (hpos : 0 < L.getD i 0) :
    canonicalCode L i
      < canonicalNextCode L (L.getD i 0) + symCount L (L.getD i 0) := by
  unfold canonicalCode
  have := symCount_take_lt L i hi hpos
  omega

/-- Canonical codes of distinct positive-length symbols are distinct. -/
theorem canonicalCode_inj (L : List Nat) (i j : Nat)
    (hi : i < L.length) (hj : j < L.length)
    (hpi : 0 < L.getD i 0) (hpj : 0 < L.getD j 0) (hij : i ≠ j) :
    canonicalCode L i ≠ canonicalCode L j := by
  rcases Nat.lt_trichotomy (L.getD i 0) (L.getD j 0) with hl | hl | hl
  · -- shorter length i: its whole range lies below the range of j
    have h1 := canonicalCode_lt L i hi hpi
    have h2 := canonicalNextCode_mono L (L.getD i 0) (L.getD j 0) hl
    have h3 : canonicalNextCode L (L.getD i 0) + symCount L (L.getD i 0)
        ≤ (canonicalNextCode L (L.getD i 0) + symCount L (L.getD i 0))
          * 2 ^ (L.getD j 0 - L.getD i 0) :=
      Nat.le_mul_of_pos_right _ (Nat.pos_pow_of_pos _ (by norm_num))
    have h4 := canonicalCode_ge L j
    omega
  · -- equal lengths: the per-length counters separate them
    rcases Nat.lt_or_ge i j with hij2 | hij2
    · have := symCount_take_mono L i j hij2 (by omega) (L.getD i 0) hpi rfl
      unfold canonicalCode
      rw [← hl]
      omega
    · have hij3 : j < i := by omega
      have := symCount_take_mono L j i hij3 (by omega) (L.getD j 0) hpj rfl
      unfold canonicalCode
      rw [hl]
      omega
  · have h1 := canonicalCode_lt L j hj hpj
    have h2 := canonicalNextCode_mono L (L.getD j 0) (L.getD i 0) hl
    have h3 : canonicalNextCode L (L.getD j 0) + symCount L (L.getD j 0)
        ≤ (canonicalNextCode L (L.getD j 0) + symCount L (L.getD j 0))
          * 2 ^ (L.getD i 0 - L.getD j 0) :=
      Nat.le_mul_of_pos_right _ (Nat.pos_pow_of_pos _ (by norm_num))
    have h4 := canonicalCode_ge L i
    omega

/-- Canonical codes are prefix-free: truncating a longer code to a
shorter code length never collides with a code of that length. -/
theorem canonicalCode_prefix_ne (L : List Nat) (i j : Nat)
    (hi : i < L.length) (hj : j < L.length) (hpj : 0 < L.getD j 0)
    (hlt : L.getD j 0 < L.getD i 0) :
    canonicalCode L i / 2 ^ (L.getD i 0 - L.getD j 0) ≠ canonicalCode L j := by
  have h1 := canonicalCode_lt L j hj hpj
  have h2 := canonicalNextCode_mono L (L.getD j 0) (L.getD i 0) hlt
  have hpow : 0 < 2 ^ (L.getD i 0 - L.getD j 0) :=
    Nat.pos_pow_of_pos _ (by norm_num)
  have h3 : canonicalNextCode L (L.getD j 0) + symCount L (L.getD j 0)
      ≤ canonicalNextCode L (L.getD i 0) / 2 ^ (L.getD i 0 - L.getD j 0) :=
    (Nat.le_div_iff_mul_le hpow).mpr h2
  have h4 : canonicalNextCode L (L.getD i 0) / 2 ^ (L.getD i 0 - L.getD j 0)
      ≤ canonicalCode L i / 2 ^ (L.getD i 0 - L.getD j 0) :=
    Nat.div_le_div_right (canonicalCode_ge L i)
  omega

/-- Membership in the insertion list built by `lutOf`. -/
theorem lutOf_mem (k : Nat) (hc : HuffmanCode) :
    ∀ (ls : List Nat) (i0 : Nat) (cs : List Nat),
      (k, hc) ∈ lutOf i0 ls cs ↔
        ∃ j, j < ls.length ∧ j < cs.length ∧ 0 < ls.getD j 0 ∧
          k = cs.getD j 0 ∧ hc = ⟨(i0 + j) % 2 ^ 16, ls.getD j 0⟩ := by
  intro ls
  induction ls with
  | nil =>
    intro i0 cs
    simp [lutOf]
  | cons len ls ih =>
    intro i0 cs
    cases cs with
    | nil =>
      simp [lutOf]
    | cons code cs =>
      unfold lutOf
      rw [List.mem_append]
      constructor
      · rintro (hmem | hmem)
        · rcases Decidable.em (0 < len) with hlen | hlen
          · rw [if_pos hlen] at hmem
            simp at hmem
            refine ⟨0, by simp, by simp, by simpa using hlen, ?_, ?_⟩
            · simpa using hmem.1
            · rw [hmem.2]
              simp
          · rw [if_neg hlen] at hmem
            simp at hmem
        · obtain ⟨j, hj1, hj2, hj3, hj4, hj5⟩ := (ih (i0 + 1) cs).mp hmem
          refine ⟨j + 1, by simpa using hj1, by simpa using hj2,
            by simpa using hj3, by simpa using hj4, ?_⟩
          rw [hj5]
          have : i0 + 1 + j = i0 + (j + 1) := by omega
          simp [this]
      · rintro ⟨j, hj1, hj2, hj3, hj4, hj5⟩
        cases j with
        | zero =>
          left
          have hlen : 0 < len := by simpa using hj3
          rw [if_pos hlen]
          simp at hj4 hj5
          simp [hj4, hj5]
        | succ j2 =>
          right
          apply (ih (i0 + 1) cs).mpr
          refine ⟨j2, by simp at hj1; omega, by simp at hj2; omega,
            by simpa using hj3, by simpa using hj4, ?_⟩
          simp only [List.getD_cons_succ] at hj5
          rw [hj5]
          have : i0 + (j2 + 1) = i0 + 1 + j2 := by omega
          simp [this]

/-- `lutGet` only returns entries of the list. -/
theorem lutGet_mem (l : List (Nat × HuffmanCode)) (k : Nat) (hc : HuffmanCode)
    (h : lutGet l k = some hc) : (k, hc) ∈ l := by
  induction l with
  | nil => simp [lutGet] at h
  | cons p rest ih =>
    obtain ⟨c, hc0⟩ := p
    unfold lutGet at h
    rcases hrest : lutGet rest k with - | r
    · rw [hrest] at h
      simp at h
      obtain ⟨h1, h2⟩ := h
      subst h1
      subst h2
      exact List.mem_cons_self _ _
    · rw [hrest] at h
      simp at h
      subst h
      exact List.mem_cons_of_mem _ (ih hrest)

/-- `lutGet` finds a binding whenever the key occurs. -/
theorem lutGet_isSome_of_mem (l : List (Nat × HuffmanCode)) (k : Nat)
    (hc : HuffmanCode) (h : (k, hc) ∈ l) : ∃ hc2, lutGet l k = some hc2 := by
  induction l with
  | nil => simp at h
  | cons p rest ih =>
    obtain ⟨c, hc0⟩ := p
    unfold lutGet
    rcases hrest : lutGet rest k with - | r
    · rcases List.mem_cons.mp h with hhd | htl
      · have hck : c = k := by
          have := congrArg Prod.fst hhd.symm
          simpa using this
        rw [if_pos hck]
        exact ⟨hc0, rfl⟩
      · obtain ⟨hc2, hsome⟩ := ih htl
        rw [hsome] at hrest
        simp at hrest
    · exact ⟨r, rfl⟩

/-- With a unique binding for `k`, `lutGet` returns it. -/
theorem lutGet_eq_of_unique (l : List (Nat × HuffmanCode)) (k : Nat)
    (hc : HuffmanCode) (hmem : (k, hc) ∈ l)
    (huniq : ∀ hc2, (k, hc2) ∈ l → hc2 = hc) : lutGet l k = some hc := by
  obtain ⟨hc2, hsome⟩ := lutGet_isSome_of_mem l k hc hmem
  have := huniq hc2 (lutGet_mem l k hc2 hsome)
  rw [hsome, this]

/-- Membership in the table built by `HuffmanTree::new`, for a valid
length vector: exactly the canonical bindings. -/
theorem huffmanTree_new_mem (L : List Nat) (hK : KraftValid L)
    (hlen : L.length ≤ 2 ^ 16) (k : Nat) (hc : HuffmanCode) :
    (k, hc) ∈ (HuffmanTree.new L).lut ↔
      ∃ j, j < L.length ∧ 0 < L.getD j 0 ∧ k = canonicalCode L j ∧
        hc = ⟨j, L.getD j 0⟩ := by
  show (k, hc) ∈ lutOf 0 L (assignCodes (nextCodeFn L) L) ↔ _
  rw [lutOf_mem]
  constructor
  · rintro ⟨j, hj1, hj2, hj3, hj4, hj5⟩
    refine ⟨j, hj1, hj3, ?_, ?_⟩
    · rw [hj4, assignCodes_canonical L hK j hj1 hj3]
    · rw [hj5]
      have : (0 + j) % 2 ^ 16 = j := by
        rw [Nat.zero_add]
        exact Nat.mod_eq_of_lt (by omega)
      rw [this]
  · rintro ⟨j, hj1, hj2, hj3, hj4⟩
    refine ⟨j, hj1, ?_, hj2, ?_, ?_⟩
    · rw [assignCodes_length]
      exact hj1
    · rw [hj3, assignCodes_canonical L hK j hj1 hj2]
    · rw [hj4]
      have : (0 + j) % 2 ^ 16 = j := by
        rw [Nat.zero_add]
        exact Nat.mod_eq_of_lt (by omega)
      rw [this]

/-- For a valid length vector, lookup at a canonical code returns exactly
the canonical binding. -/
theorem huffmanTree_new_lutGet (L : List Nat) (hK : KraftValid L)
    (hlen : L.length ≤ 2 ^ 16) (i : Nat) (hi : i < L.length)
    (hpos : 0 < L.getD i 0) :
    lutGet (HuffmanTree.new L).lut (canonicalCode L i)
      = some ⟨i, L.getD i 0⟩ := by
  apply lutGet_eq_of_unique
  · exact (huffmanTree_new_mem L hK hlen _ _).mpr ⟨i, hi, hpos, rfl, rfl⟩
  · intro hc2 hmem2
    obtain ⟨j, hj1, hj2, hj3, hj4⟩ := (huffmanTree_new_mem L hK hlen _ _).mp hmem2
    have hij : j = i := by
      by_contra hne
      exact canonicalCode_inj L j i hj1 hi hj2 hpos hne hj3.symm
    rw [hj4, hij]

/-- Decode characterization for a valid length vector. -/
theorem huffmanTree_decode_iff (L : List Nat) (hK : KraftValid L)
    (hlen : L.length ≤ 2 ^ 16) (c b s : Nat) :
    (HuffmanTree.new L).decode c b = some s ↔
      ∃ i, i < L.length ∧ s = i ∧ L.getD i 0 = b ∧ 0 < b ∧
        canonicalCode L i = c := by
  unfold HuffmanTree.decode
  constructor
  · intro h
    rcases hget : lutGet (HuffmanTree.new L).lut c with - | hc
    · rw [hget] at h
      simp at h
    · rw [hget] at h
      dsimp only at h
      rcases Decidable.em (b = hc.len) with hb | hb
      · rw [if_pos hb] at h
        simp at h
        obtain ⟨j, hj1, hj2, hj3, hj4⟩ :=
          (huffmanTree_new_mem L hK hlen _ _).mp (lutGet_mem _ _ _ hget)
        refine ⟨j, hj1, ?_, ?_, ?_, hj3.symm⟩
        · rw [← h, hj4]
        · rw [hb, hj4]
        · rw [hb, hj4]
          exact hj2
      · rw [if_neg hb] at h
        simp at h
  · rintro ⟨i, hi, hs, hb, hpos, hcode⟩
    rw [← hcode, huffmanTree_new_lutGet L hK hlen i hi (by omega)]
    dsimp only
    rw [if_pos hb.symm, hs]

/-- A strict prefix of a canonical code decodes to `None`. -/
theorem huffmanTree_decode_prefix (L : List Nat) (hK : KraftValid L)
    (hlen : L.length ≤ 2 ^ 16) (i b2 : Nat) (hi : i < L.length)
    (hpos : 0 < L.getD i 0) (hb2 : 0 < b2) (hb2lt : b2 < L.getD i 0) :
    (HuffmanTree.new L).decode
      (canonicalCode L i / 2 ^ (L.getD i 0 - b2)) b2 = none := by
  rcases hdec : (HuffmanTree.new L).decode
      (canonicalCode L i / 2 ^ (L.getD i 0 - b2)) b2 with - | s
  · rfl
  · exfalso
    obtain ⟨j, hj1, hj2, hj3, hj4, hj5⟩ :=
      (huffmanTree_decode_iff L hK hlen _ _ _).mp hdec
    have := canonicalCode_prefix_ne L i j hi hj1 (by omega) (by omega)
    rw [hj3] at this
    exact this hj5.symm

/-! C3: the final statement. -/

/-- C3 counterexample (to the claim as stated, for arbitrary `L` with
entries at most 15): with the over-subscribed vector
`[1,1,1,1,1,1,1,1,15]`, the `u16` shift in `next_code` wraps and symbol 8
receives code value 0 at length 15, overwriting the entry of symbol 0
(whose canonical code value is 0 at length 1); `decode(0, 1)` then
returns `None` although symbol 0 has `L[0] = 1 > 0` and canonical code
value 0. -/
theorem c3_counterexample :
    (∀ x ∈ [1, 1, 1, 1, 1, 1, 1, 1, 15], x ≤ 15) ∧
    0 < [1, 1, 1, 1, 1, 1, 1, 1, 15].getD 0 0 ∧
    canonicalCode [1, 1, 1, 1, 1, 1, 1, 1, 15] 0 = 0 ∧
    [1, 1, 1, 1, 1, 1, 1, 1, 15].getD 0 0 = 1 ∧
    (HuffmanTree.new [1, 1, 1, 1, 1, 1, 1, 1, 15]).decode 0 1 = none := by
  refine ⟨by decide, by decide, by decide, by decide, by decide⟩

/-- C3 (amended): for every length vector `L` with at most `2 ^ 16`
entries that describes a valid (not over-subscribed) code — all entries at
most 15 and Kraft sum `∑ 2 ^ (15 - L[i]) ≤ 2 ^ 15` over non-zero entries —
the table built by `HuffmanTree::new` binds exactly the canonical RFC 1951
code of each symbol of positive length; `decode(code, bits)` returns
`Some(symbol)` exactly when some symbol with `L[symbol] = bits > 0` has
canonical code value `code`; and a strict prefix of a canonical code at a
shorter length returns `None`. -/
theorem c3_huffman_canonical (L : List Nat) (hK : KraftValid L)
    (hlen : L.length ≤ 2 ^ 16) :
    (∀ i, i < L.length → 0 < L.getD i 0 →
      lutGet (HuffmanTree.new L).lut (canonicalCode L i)
        = some ⟨i, L.getD i 0⟩) ∧
    (∀ c b s, (HuffmanTree.new L).decode c b = some s ↔
      ∃ i, i < L.length ∧ s = i ∧ L.getD i 0 = b ∧ 0 < b ∧
        canonicalCode L i = c) ∧
    (∀ i b2, i < L.length → 0 < L.getD i 0 → 0 < b2 → b2 < L.getD i 0 →
      (HuffmanTree.new L).decode
        (canonicalCode L i / 2 ^ (L.getD i 0 - b2)) b2 = none) :=
  ⟨fun i hi hpos => huffmanTree_new_lutGet L hK hlen i hi hpos,
   fun c b s => huffmanTree_decode_iff L hK hlen c b s,
   fun i b2 hi hpos hb2 hb2lt =>
     huffmanTree_decode_prefix L hK hlen i b2 hi hpos hb2 hb2lt⟩

/-- C3 witness, at the length vector of the source unit test
`test_lut_values_correct`. -/
theorem c3_huffman_canonical_witness :
    (KraftValid [3, 3, 3, 3, 3, 2, 4, 4] ∧
      List.length [3, 3, 3, 3, 3, 2, 4, 4] ≤ 2 ^ 16) ∧
    ((∀ i, i < List.length [3, 3, 3, 3, 3, 2, 4, 4] →
      0 < [3, 3, 3, 3, 3, 2, 4, 4].getD i 0 →
      lutGet (HuffmanTree.new [3, 3, 3, 3, 3, 2, 4, 4]).lut
          (canonicalCode [3, 3, 3, 3, 3, 2, 4, 4] i)
        = some ⟨i, [3, 3, 3, 3, 3, 2, 4, 4].getD i 0⟩) ∧
    (∀ c b s, (HuffmanTree.new [3, 3, 3, 3, 3, 2, 4, 4]).decode c b = some s ↔
      ∃ i, i < List.length [3, 3, 3, 3, 3, 2, 4, 4] ∧ s = i ∧
        [3, 3, 3, 3, 3, 2, 4, 4].getD i 0 = b ∧ 0 < b ∧
        canonicalCode [3, 3, 3, 3, 3, 2, 4, 4] i = c) ∧
    (∀ i b2, i < List.length [3, 3, 3, 3, 3, 2, 4, 4] →
      0 < [3, 3, 3, 3, 3, 2, 4, 4].getD i 0 → 0 < b2 →
      b2 < [3, 3, 3, 3, 3, 2, 4, 4].getD i 0 →
      (HuffmanTree.new [3, 3, 3, 3, 3, 2, 4, 4]).decode
        (canonicalCode [3, 3, 3, 3, 3, 2, 4, 4] i /
          2 ^ ([3, 3, 3, 3, 3, 2, 4, 4].getD i 0 - b2)) b2 = none)) :=
  ⟨⟨⟨by decide, by decide⟩, by decide⟩,
   c3_huffman_canonical [3, 3, 3, 3, 3, 2, 4, 4] ⟨by decide, by decide⟩
     (by decide)⟩

/-! ## Claim C1 / C10: concrete machine runs -/

/-- C1: decoding a complete single-member GZIP stream whose only DEFLATE
block is a stored block, the decoder reaches `Done` and emits exactly one
`on_block_start`, one `set_block_type` and one `on_block_data_start` call
— but NO `on_block_end` call: the `NonCompressedBlock` arm of
`state_transition` never notifies the checkpointer when the stored body
completes, contradicting the claimed one-start/one-end invariant. -/
theorem c1_stored_block_missing_end :
    runIsDone c1StoredInput 16 50 = true ∧
    countBlockStarts (runEvents c1StoredInput 16 50) = 1 ∧
    countSetBlockTypes (runEvents c1StoredInput 16 50) = 1 ∧
    countBlockDataStarts (runEvents c1StoredInput 16 50) = 1 ∧
    countBlockEnds (runEvents c1StoredInput 16 50) = 0 := by
  refine ⟨by decide, by decide, by decide, by decide, by decide⟩

/-- C10: with `HLIT = 31` and `HDIST = 31` the combined code-length count
is `288 + 32 = 320 > 316 = MAX_SYMBOL_CODES + MAX_DISTANCE_CODES`, and on
`c10DynInput` the `PrepareDynamicBlock` arm reaches the write
`combined_cls[316]`, which is out of bounds — the Rust code panics
(modelled as `panicOutOfBounds`) instead of returning a value or an
error. -/
theorem c10_dynamic_block_oob_write :
    transitionErr c10Machine 100 = some .panicOutOfBounds := by
  decide

/-! ## Claim C4: checkpoint bit-position arithmetic -/

/-- C4: for a block checkpoint produced by the call sequence
`on_block_start`, `on_block_data_start`, `on_block_end`, the recorded
distances satisfy
`header_len_bits = (body_byte - start_byte) * 8 + (body_bit - start_bit)`
and
`block_len_bits = (end_byte - start_byte) * 8 + (end_bit - start_bit)`,
where every byte position supplied by the decoder is first adjusted down
by one exactly when its bit offset is non-zero.  (The hypotheses say the
supplied byte positions are at least 1 whenever mid-byte, which holds for
the decoder since a non-zero bit offset implies at least one consumed
byte.) -/
theorem c4_checkpoint_bit_arithmetic (cp : Checkpointer)
    (b1 t1 o1 b2 t2 b3 t3 o3 crc : Nat) (data : List Nat)
    (h1 : t1 ≠ 0 → 1 ≤ b1) (h2 : t2 ≠ 0 → 1 ≤ b2) (h3 : t3 ≠ 0 → 1 ≤ b3) :
    ∃ row,
      ((((cp.on_block_start b1 t1 o1).on_block_data_start b2 t2
        data).on_block_end b3 t3 o3 crc).rows).getLast? = some row ∧
      row.header_len_bits =
        ((if t2 = 0 then (b2 : Int) else (b2 : Int) - 1)
          - (if t1 = 0 then (b1 : Int) else (b1 : Int) - 1)) * 8
          + ((t2 : Int) - (t1 : Int)) ∧
      row.block_len_bits = some
        (((if t3 = 0 then (b3 : Int) else (b3 : Int) - 1)
          - (if t1 = 0 then (b1 : Int) else (b1 : Int) - 1)) * 8
          + ((t3 : Int) - (t1 : Int))) := by
  have hcast : ∀ (b t : Nat), (t ≠ 0 → 1 ≤ b) →
      ((if t = 0 then b else b - 1 : Nat) : Int)
        = (if t = 0 then (b : Int) else (b : Int) - 1) := by
    intro b t h
    rcases Decidable.eq_or_ne t 0 with ht | ht
    · simp [ht]
    · rw [if_neg ht, if_neg ht]
      have := h ht
      push_cast [Nat.cast_sub this]
      ring
  unfold Checkpointer.on_block_start Checkpointer.on_block_data_start
    Checkpointer.on_block_end
  simp only [List.getLast?_concat, List.dropLast_concat, Option.map_some,
    Option.map_some', Option.getD_some]
  refine ⟨_, rfl, ?_, ?_⟩
  · unfold dist_in_bits
    rw [hcast b1 t1 h1, hcast b2 t2 h2]
  · unfold dist_in_bits
    rw [hcast b1 t1 h1, hcast b3 t3 h3]

/-- C4 witness at concrete positions (one mid-byte start, one aligned
body start, one mid-byte end). -/
theorem c4_checkpoint_bit_arithmetic_witness :
    ((3 ≠ 0 → (1 : Nat) ≤ 10) ∧ ((0 : Nat) ≠ 0 → (1 : Nat) ≤ 12) ∧
      (5 ≠ 0 → (1 : Nat) ≤ 20)) ∧
    (∃ row,
      ((((Checkpointer.init.on_block_start 10 3 0).on_block_data_start 12 0
        []).on_block_end 20 5 7 9).rows).getLast? = some row ∧
      row.header_len_bits =
        ((if (0 : Nat) = 0 then (12 : Int) else (12 : Int) - 1)
          - (if (3 : Nat) = 0 then (10 : Int) else (10 : Int) - 1)) * 8
          + (((0 : Nat) : Int) - ((3 : Nat) : Int)) ∧
      row.block_len_bits = some
        (((if (5 : Nat) = 0 then (20 : Int) else (20 : Int) - 1)
          - (if (3 : Nat) = 0 then (10 : Int) else (10 : Int) - 1)) * 8
          + (((5 : Nat) : Int) - ((3 : Nat) : Int)))) :=
  ⟨⟨fun _ => by norm_num, fun h => absurd rfl h, fun _ => by norm_num⟩,
   c4_checkpoint_bit_arithmetic Checkpointer.init 10 3 0 12 0 20 5 7 9 []
     (fun _ => by norm_num) (fun h => absurd rfl h) (fun _ => by norm_num)⟩

/-! ## Claim C8: ISIZE equals the wrapping per-member byte counter -/

theorem exceptBind_ok {e a b : Type} (x : a) (f : a → Except e b) :
    (Except.ok x >>= f) = f x := rfl

theorem exceptBind_error {e a b : Type} (err : e) (f : a → Except e b) :
    ((Except.error err : Except e a) >>= f) = Except.error err := rfl

theorem exceptPure {e a : Type} (x : a) :
    (pure x : Except e a) = Except.ok x := rfl

theorem read_u32_le_ok (r : ScryByteReader) (v : Nat) (r2 : ScryByteReader)
    (h : r.read_u32_le = .ok (v, r2)) :
    r2.input = r.input.drop 4 ∧ 4 ≤ r.input.length ∧
    v = r.input.getD 0 0 + r.input.getD 1 0 * 256 +
      r.input.getD 2 0 * 65536 + r.input.getD 3 0 * 16777216 := by
  rcases hin : r.input with - | ⟨b0, l0⟩
  · simp [ScryByteReader.read_u32_le, ScryByteReader.read_u8, hin,
      exceptBind_ok, exceptBind_error] at h
  rcases hl0 : l0 with - | ⟨b1, l1⟩
  · simp [ScryByteReader.read_u32_le, ScryByteReader.read_u8, hin, hl0,
      exceptBind_ok, exceptBind_error] at h
  rcases hl1 : l1 with - | ⟨b2, l2⟩
  · simp [ScryByteReader.read_u32_le, ScryByteReader.read_u8, hin, hl0, hl1,
      exceptBind_ok, exceptBind_error] at h
  rcases hl2 : l2 with - | ⟨b3, l3⟩
  · simp [ScryByteReader.read_u32_le, ScryByteReader.read_u8, hin, hl0, hl1,
      hl2, exceptBind_ok, exceptBind_error] at h
  · simp [ScryByteReader.read_u32_le, ScryByteReader.read_u8, hin, hl0, hl1,
      hl2, exceptBind_ok, exceptBind_error] at h
    refine ⟨?_, by simp [hin, hl0, hl1, hl2], ?_⟩
    · rw [← h.2]
      simp [hin, hl0, hl1, hl2]
    · rw [← h.1]
      simp [hin, hl0, hl1, hl2]

/-- C8: (i) the per-member byte counter (`u32`, `wrapping_add`) counts
pushed bytes modulo `2 ^ 32`; (ii) whenever the `GZIPFooter` transition
succeeds, the ISIZE field it read equals the window's wrapping byte
counter — so for every accepted member the byte count is congruent to
ISIZE modulo `2 ^ 32` — and the counter has been reset to 0 for the next
member. -/
theorem c8_isize_counter (w : CircularBuffer) (bs : List Nat) (d d2 : Deflator)
    (out : List Nat) (bufLen : Nat)
    (hc : w.counter < 2 ^ 32)
    (hst : d.state = .gzipFooter)
    (htr : stateTransition d bufLen = .ok (d2, out)) :
    ((w.pushAll bs).counter = (w.counter + bs.length) % 2 ^ 32) ∧
    isizeField d.reader = some d.buffer.counter ∧
    d2.buffer.counter = 0 ∧ d2.state = .gzipHeader := by
  refine ⟨CircularBuffer.counter_pushAll w bs hc, ?_⟩
  obtain ⟨buf, st, fin, rd, evs⟩ := d
  simp only at hst
  subst hst
  simp only [stateTransition] at htr
  cases hr1 : (rd.discard_until_next_byte).read_u32_le with
  | error e1 =>
    rw [hr1] at htr
    simp [exceptBind_error] at htr
  | ok p1 =>
    obtain ⟨v1, r1⟩ := p1
    rw [hr1] at htr
    simp only [exceptBind_ok] at htr
    rcases Decidable.em (buf.crc32.1 ≠ v1) with hne | heq
    · rw [if_pos hne] at htr
      simp [throw, throwThe, MonadExceptOf.throw] at htr
    · rw [if_neg heq] at htr
      cases hr2 : r1.read_u32_le with
      | error e2 =>
        rw [hr2] at htr
        simp [exceptBind_error] at htr
      | ok p2 =>
        obtain ⟨v2, r2⟩ := p2
        rw [hr2] at htr
        simp only [exceptBind_ok] at htr
        rcases Decidable.em (buf.crc32.2.counterTake.1 ≠ v2) with hne2 | heq2
        · rw [if_pos hne2] at htr
          simp [throw, throwThe, MonadExceptOf.throw] at htr
        · rw [if_neg heq2] at htr
          simp only [Except.ok.injEq, Prod.mk.injEq] at htr
          obtain ⟨hd2, -⟩ := htr
          have hv2 : buf.counter = v2 := by
            have hrfl : buf.crc32.2.counterTake.1 = buf.counter := rfl
            rw [hrfl] at heq2
            omega
          obtain ⟨hi1, hl1, -⟩ := read_u32_le_ok _ _ _ hr1
          obtain ⟨hi2, hl2, hv2f⟩ := read_u32_le_ok _ _ _ hr2
          have hdisc : (rd.discard_until_next_byte).input = rd.input := rfl
          rw [hdisc] at hi1 hl1
          refine ⟨?_, ?_, ?_⟩
          · show isizeField rd = some buf.counter
            unfold isizeField
            rw [if_pos ?hlen]
            case hlen =>
              rw [hi1] at hl2
              simp only [List.length_drop] at hl2
              omega
            rw [hv2, hv2f, hi1]
          · rw [← hd2]
            rfl
          · rw [← hd2]
/-- C8 witness: a concrete footer transition that succeeds (empty member,
CRC32 0, ISIZE 0) together with a concrete counter computation. -/
theorem c8_isize_counter_witness :
    ((CircularBuffer.new 32768 0).counter < 2 ^ 32 ∧
      (⟨CircularBuffer.new 32768 0, .gzipFooter, true,
        ScryByteReader.new [0, 0, 0, 0, 0, 0, 0, 0], []⟩ : Deflator).state
        = .gzipFooter) ∧
    ((((CircularBuffer.new 32768 0).pushAll [1, 2]).counter
        = ((CircularBuffer.new 32768 0).counter + List.length [1, 2]) % 2 ^ 32) ∧
      isizeField (⟨CircularBuffer.new 32768 0, .gzipFooter, true,
          ScryByteReader.new [0, 0, 0, 0, 0, 0, 0, 0], []⟩ : Deflator).reader
        = some (⟨CircularBuffer.new 32768 0, .gzipFooter, true,
          ScryByteReader.new [0, 0, 0, 0, 0, 0, 0, 0], []⟩ : Deflator).buffer.counter ∧
      (⟨(((CircularBuffer.new 32768 0).crc32).2.counterTake).2, .gzipHeader, true,
        ⟨[], 8, 0, 0, none⟩, []⟩ : Deflator).buffer.counter = 0 ∧
      (⟨(((CircularBuffer.new 32768 0).crc32).2.counterTake).2, .gzipHeader, true,
        ⟨[], 8, 0, 0, none⟩, []⟩ : Deflator).state = .gzipHeader) :=
  ⟨⟨by decide, rfl⟩,
   c8_isize_counter (CircularBuffer.new 32768 0) [1, 2]
     (⟨CircularBuffer.new 32768 0, .gzipFooter, true,
       ScryByteReader.new [0, 0, 0, 0, 0, 0, 0, 0], []⟩ : Deflator)
     (⟨(((CircularBuffer.new 32768 0).crc32).2.counterTake).2, .gzipHeader, true,
       ⟨[], 8, 0, 0, none⟩, []⟩ : Deflator)
     [] 4 (by decide) rfl (by rfl)⟩

/-! ## Claim C7: termination of `read_internal`

Bit-consumption lemmas for the reader operations: each successful read
consumes exactly (or at most) the stated number of input bits and keeps
the bit cursor inside a byte. -/

theorem read_u8_bits {r r2 : ScryByteReader} {b : Nat}
    (h : r.read_u8 = .ok (b, r2)) :
    r2.bitsRemaining + 8 = r.bitsRemaining ∧ r2.current_bit = r.current_bit := by
  rcases hin : r.input with - | ⟨x, xs⟩
  · simp [ScryByteReader.read_u8, hin] at h
  · simp only [ScryByteReader.read_u8, hin, Except.ok.injEq, Prod.mk.injEq] at h
    obtain ⟨-, h2⟩ := h
    subst h2
    refine ⟨?_, rfl⟩
    by_cases hcb : r.current_bit = 0 <;>
      simp [ScryByteReader.bitsRemaining, hin, hcb] <;> omega

theorem read_bit_bits {r r2 : ScryByteReader} {b : Nat}
    (hcb : r.current_bit < 8) (h : r.read_bit = .ok (b, r2)) :
    r2.bitsRemaining + 1 = r.bitsRemaining ∧ r2.current_bit < 8 := by
  unfold ScryByteReader.read_bit at h
  by_cases h0 : r.current_bit = 0
  · rw [if_pos h0] at h
    cases hu : r.read_u8 with
    | error e => rw [hu] at h; simp [exceptBind_error] at h
    | ok p =>
      obtain ⟨bb, rr⟩ := p
      obtain ⟨hb1, hb2⟩ := read_u8_bits hu
      rw [hu] at h
      simp only [exceptBind_ok, exceptPure, Except.ok.injEq, Prod.mk.injEq] at h
      obtain ⟨-, h2⟩ := h
      subst h2
      simp only [ScryByteReader.bitsRemaining] at hb1 ⊢
      simp only [hb2, h0] at hb1 ⊢
      norm_num
      omega
  · rw [if_neg h0] at h
    simp only [exceptPure, exceptBind_ok, Except.ok.injEq, Prod.mk.injEq] at h
    obtain ⟨-, h2⟩ := h
    subst h2
    constructor
    · by_cases h7 : r.current_bit = 7
      · simp [ScryByteReader.bitsRemaining, h7]
      · have hlt : r.current_bit + 1 < 8 := by omega
        simp only [ScryByteReader.bitsRemaining, Nat.mod_eq_of_lt hlt]
        have hne : r.current_bit + 1 ≠ 0 := by omega
        simp only [h0, hne, if_false]
        omega
    · exact Nat.mod_lt _ (by norm_num)

theorem readNBitsAux_bits (n : Nat) :
    ∀ (r : ScryByteReader) (v i val : Nat) (r2 : ScryByteReader),
      r.current_bit < 8 → ScryByteReader.readNBitsAux r v i n = .ok (val, r2) →
      r2.bitsRemaining + n = r.bitsRemaining ∧ r2.current_bit < 8 := by
  induction n with
  | zero =>
    intro r v i val r2 hcb h
    simp only [ScryByteReader.readNBitsAux, Except.ok.injEq, Prod.mk.injEq] at h
    obtain ⟨-, h2⟩ := h
    subst h2
    exact ⟨rfl, hcb⟩
  | succ n ih =>
    intro r v i val r2 hcb h
    cases hb : r.read_bit with
    | error e =>
      simp only [ScryByteReader.readNBitsAux, hb, exceptBind_error] at h
      cases h
    | ok p =>
      obtain ⟨bit, rb⟩ := p
      obtain ⟨h1, h2⟩ := read_bit_bits hcb hb
      simp only [ScryByteReader.readNBitsAux, hb, exceptBind_ok] at h
      obtain ⟨h3, h4⟩ := ih rb _ _ _ _ h2 h
      exact ⟨by omega, h4⟩

theorem read_n_bits_le_bits {r r2 : ScryByteReader} {n val : Nat}
    (hcb : r.current_bit < 8) (h : r.read_n_bits_le n = .ok (val, r2)) :
    r2.bitsRemaining + n = r.bitsRemaining ∧ r2.current_bit < 8 := by
  unfold ScryByteReader.read_n_bits_le at h
  by_cases h16 : 16 < n
  · rw [if_pos h16] at h; cases h
  · rw [if_neg h16] at h
    exact readNBitsAux_bits n r 0 0 val r2 hcb h

theorem read_u16_le_bits {r r2 : ScryByteReader} {v : Nat}
    (h : r.read_u16_le = .ok (v, r2)) :
    r2.bitsRemaining + 16 = r.bitsRemaining ∧ r2.current_bit = r.current_bit := by
  cases h0 : r.read_u8 with
  | error e => simp [ScryByteReader.read_u16_le, h0, exceptBind_error] at h
  | ok p =>
    obtain ⟨b0, ra⟩ := p
    obtain ⟨ha1, ha2⟩ := read_u8_bits h0
    cases h1 : ra.read_u8 with
    | error e =>
      simp [ScryByteReader.read_u16_le, h0, h1, exceptBind_ok,
        exceptBind_error] at h
    | ok q =>
      obtain ⟨b1, rb⟩ := q
      obtain ⟨hb1, hb2⟩ := read_u8_bits h1
      simp only [ScryByteReader.read_u16_le, h0, h1, exceptBind_ok,
        Except.ok.injEq, Prod.mk.injEq] at h
      obtain ⟨-, h2⟩ := h
      subst h2
      exact ⟨by omega, by omega⟩

theorem read_u32_le_bits {r r2 : ScryByteReader} {v : Nat}
    (h : r.read_u32_le = .ok (v, r2)) :
    r2.bitsRemaining + 32 = r.bitsRemaining ∧ r2.current_bit = r.current_bit := by
  cases h0 : r.read_u8 with
  | error e => simp [ScryByteReader.read_u32_le, h0, exceptBind_error] at h
  | ok p =>
    obtain ⟨b0, ra⟩ := p
    obtain ⟨ha1, ha2⟩ := read_u8_bits h0
    cases h1 : ra.read_u8 with
    | error e =>
      simp [ScryByteReader.read_u32_le, h0, h1, exceptBind_ok,
        exceptBind_error] at h
    | ok q =>
      obtain ⟨b1, rb⟩ := q
      obtain ⟨hb1, hb2⟩ := read_u8_bits h1
      cases h2 : rb.read_u8 with
      | error e =>
        simp [ScryByteReader.read_u32_le, h0, h1, h2, exceptBind_ok,
          exceptBind_error] at h
      | ok q2 =>
        obtain ⟨b2, rc⟩ := q2
        obtain ⟨hc1, hc2⟩ := read_u8_bits h2
        cases h3 : rc.read_u8 with
        | error e =>
          simp [ScryByteReader.read_u32_le, h0, h1, h2, h3, exceptBind_ok,
            exceptBind_error] at h
        | ok q3 =>
          obtain ⟨b3, rd⟩ := q3
          obtain ⟨hd1, hd2⟩ := read_u8_bits h3
          simp only [ScryByteReader.read_u32_le, h0, h1, h2, h3,
            exceptBind_ok, Except.ok.injEq, Prod.mk.injEq] at h
          obtain ⟨-, h4⟩ := h
          subst h4
          exact ⟨by omega, by omega⟩

theorem discard_bits (r : ScryByteReader) :
    (r.discard_until_next_byte).bitsRemaining ≤ r.bitsRemaining ∧
    (r.discard_until_next_byte).current_bit = 0 := by
  refine ⟨?_, rfl⟩
  by_cases hcb : r.current_bit = 0 <;>
    simp [ScryByteReader.discard_until_next_byte, ScryByteReader.bitsRemaining,
      hcb]

theorem skipBytes_bits (n : Nat) :
    ∀ (r r2 : ScryByteReader), ScryByteReader.skipBytes r n = .ok r2 →
      r2.bitsRemaining ≤ r.bitsRemaining ∧ r2.current_bit = r.current_bit := by
  induction n with
  | zero =>
    intro r r2 h
    simp only [ScryByteReader.skipBytes, Except.ok.injEq] at h
    subst h
    exact ⟨Nat.le_refl _, rfl⟩
  | succ n ih =>
    intro r r2 h
    cases hu : r.read_u8 with
    | error e =>
      simp only [ScryByteReader.skipBytes, hu, exceptBind_error] at h
      cases h
    | ok p =>
      obtain ⟨b, rb⟩ := p
      obtain ⟨h1, h2⟩ := read_u8_bits hu
      simp only [ScryByteReader.skipBytes, hu, exceptBind_ok] at h
      obtain ⟨h3, h4⟩ := ih rb r2 h
      exact ⟨by omega, by omega⟩

theorem readStringAux_bits (fuel : Nat) :
    ∀ (r : ScryByteReader) (acc bs : List Nat) (r2 : ScryByteReader),
      ScryByteReader.readStringAux r acc fuel = .ok (bs, r2) →
      r2.bitsRemaining ≤ r.bitsRemaining ∧ r2.current_bit = r.current_bit := by
  induction fuel with
  | zero => intro r acc bs r2 h; cases h
  | succ fuel ih =>
    intro r acc bs r2 h
    cases hu : r.read_u8 with
    | error e =>
      simp only [ScryByteReader.readStringAux, hu] at h
      cases h
    | ok p =>
      obtain ⟨b, rb⟩ := p
      obtain ⟨h1, h2⟩ := read_u8_bits hu
      simp only [ScryByteReader.readStringAux, hu] at h
      by_cases hb0 : b = 0
      · rw [if_pos hb0] at h
        simp only [Except.ok.injEq, Prod.mk.injEq] at h
        obtain ⟨-, h3⟩ := h
        subst h3
        exact ⟨by omega, by omega⟩
      · rw [if_neg hb0] at h
        obtain ⟨h3, h4⟩ := ih rb _ bs r2 h
        exact ⟨by omega, by omega⟩

theorem read_nts_bits {r r2 : ScryByteReader} {bs : List Nat}
    (h : r.read_null_terminated_string = .ok (bs, r2)) :
    r2.bitsRemaining ≤ r.bitsRemaining ∧ r2.current_bit = r.current_bit := by
  unfold ScryByteReader.read_null_terminated_string at h
  cases ha : ScryByteReader.readStringAux r [] (r.input.length + 1) with
  | error e => rw [ha] at h; simp [exceptBind_error] at h
  | ok p =>
    obtain ⟨bytes, rb⟩ := p
    obtain ⟨h1, h2⟩ := readStringAux_bits _ r [] bytes rb ha
    rw [ha] at h
    simp only [exceptBind_ok] at h
    by_cases hv : ScryByteReader.utf8Valid bytes = true
    · rw [if_pos hv] at h
      simp only [Except.ok.injEq, Prod.mk.injEq] at h
      obtain ⟨-, h3⟩ := h
      subst h3
      exact ⟨h1, h2⟩
    · rw [if_neg hv] at h
      cases h

theorem exceptBind_eq_ok {E A B : Type} {x : Except E A} {f : A → Except E B}
    {v : B} (h : (x >>= f) = .ok v) : ∃ w, x = .ok w ∧ f w = .ok v := by
  cases x with
  | ok w => exact ⟨w, rfl, h⟩
  | error e => rw [exceptBind_error] at h; cases h

theorem exceptIte_throw_ok {c : Prop} [Decidable c] {α : Type}
    {e : ScryError} {E : Except ScryError α} {v : α}
    (h : (if c then throw e else E) = .ok v) : E = .ok v ∧ ¬c := by
  by_cases hc : c
  · rw [if_pos hc] at h
    simp [throw, throwThe, MonadExceptOf.throw] at h
  · rw [if_neg hc] at h
    exact ⟨h, hc⟩

theorem exceptIte_ok {c : Prop} [Decidable c] {α : Type}
    {A B : Except ScryError α} {v : α}
    (h : (if c then A else B) = .ok v) : A = .ok v ∨ B = .ok v := by
  by_cases hc : c
  · rw [if_pos hc] at h; exact .inl h
  · rw [if_neg hc] at h; exact .inr h

set_option maxHeartbeats 1000000 in
theorem read_header_bits {r r2 : ScryByteReader} {g : GzipHeader}
    (h : read_header r = .ok (g, r2)) :
    r2.bitsRemaining < r.bitsRemaining ∧ r2.current_bit = r.current_bit := by
  cases hu : (r.begin_crc).read_u8 with
  | error e =>
    cases e <;>
      simp [read_header, hu, throw, throwThe, MonadExceptOf.throw,
        exceptBind_error] at h
  | ok q =>
  obtain ⟨id1, sa⟩ := q
  obtain ⟨ha1, ha2⟩ := read_u8_bits hu
  have hbcr : (r.begin_crc).bitsRemaining = r.bitsRemaining := rfl
  have hbcr2 : (r.begin_crc).current_bit = r.current_bit := rfl
  simp only [read_header, hu, exceptPure, exceptBind_ok] at h
  obtain ⟨p2, hp2, h⟩ := exceptBind_eq_ok h
  obtain ⟨hb1, hb2⟩ := read_u8_bits hp2
  obtain ⟨h, -⟩ := exceptIte_throw_ok h
  obtain ⟨p3, hp3, h⟩ := exceptBind_eq_ok h
  obtain ⟨hc1, hc2⟩ := read_u8_bits hp3
  obtain ⟨h, -⟩ := exceptIte_throw_ok h
  obtain ⟨p4, hp4, h⟩ := exceptBind_eq_ok h
  obtain ⟨hd1, hd2⟩ := read_u8_bits hp4
  obtain ⟨p5, hp5, h⟩ := exceptBind_eq_ok h
  obtain ⟨he1, he2⟩ := read_u32_le_bits hp5
  obtain ⟨p6, hp6, h⟩ := exceptBind_eq_ok h
  obtain ⟨hf1, hf2⟩ := read_u8_bits hp6
  obtain ⟨p7, hp7, h⟩ := exceptBind_eq_ok h
  obtain ⟨hg1, hg2⟩ := read_u8_bits hp7
  obtain ⟨sh0, hsh, h⟩ := exceptBind_eq_ok h
  have hshb : sh0.bitsRemaining ≤ p7.2.bitsRemaining ∧
      sh0.current_bit = p7.2.current_bit := by
    rcases exceptIte_ok hsh with hsh | hsh
    · obtain ⟨q0, hq0, hsh⟩ := exceptBind_eq_ok hsh
      obtain ⟨e1, e2⟩ := read_u16_le_bits hq0
      obtain ⟨e3, e4⟩ := skipBytes_bits q0.1 q0.2 sh0 hsh
      exact ⟨by omega, by omega⟩
    · simp only [Except.ok.injEq] at hsh
      subst hsh
      exact ⟨Nat.le_refl _, rfl⟩
  obtain ⟨hh1, hh2⟩ := hshb
  rcases exceptIte_ok h with h | h
  · obtain ⟨q4, hq4, h⟩ := exceptBind_eq_ok h
    obtain ⟨e41, e42⟩ := read_nts_bits hq4
    rcases exceptIte_ok h with h | h
    · obtain ⟨q5, hq5, h⟩ := exceptBind_eq_ok h
      obtain ⟨e51, e52⟩ := read_nts_bits hq5
      have hec1 : ((q5.2.end_crc).2).bitsRemaining = q5.2.bitsRemaining := rfl
      have hec2 : ((q5.2.end_crc).2).current_bit = q5.2.current_bit := rfl
      rcases exceptIte_ok h with h | h
      · obtain ⟨q6, hq6, h⟩ := exceptBind_eq_ok h
        obtain ⟨e61, e62⟩ := read_u16_le_bits hq6
        rcases exceptIte_ok h with h | h
        · simp [throw, throwThe, MonadExceptOf.throw, exceptBind_error] at h
        · simp only [Except.ok.injEq, Prod.mk.injEq] at h
          obtain ⟨-, hfin⟩ := h
          subst hfin
          exact ⟨by omega, by omega⟩
      · simp only [Except.ok.injEq, Prod.mk.injEq] at h
        obtain ⟨-, hfin⟩ := h
        subst hfin
        exact ⟨by omega, by omega⟩
    · have hec1 : ((q4.2.end_crc).2).bitsRemaining = q4.2.bitsRemaining := rfl
      have hec2 : ((q4.2.end_crc).2).current_bit = q4.2.current_bit := rfl
      rcases exceptIte_ok h with h | h
      · obtain ⟨q6, hq6, h⟩ := exceptBind_eq_ok h
        obtain ⟨e61, e62⟩ := read_u16_le_bits hq6
        rcases exceptIte_ok h with h | h
        · simp [throw, throwThe, MonadExceptOf.throw, exceptBind_error] at h
        · simp only [Except.ok.injEq, Prod.mk.injEq] at h
          obtain ⟨-, hfin⟩ := h
          subst hfin
          exact ⟨by omega, by omega⟩
      · simp only [Except.ok.injEq, Prod.mk.injEq] at h
        obtain ⟨-, hfin⟩ := h
        subst hfin
        exact ⟨by omega, by omega⟩
  · rcases exceptIte_ok h with h | h
    · obtain ⟨q5, hq5, h⟩ := exceptBind_eq_ok h
      obtain ⟨e51, e52⟩ := read_nts_bits hq5
      have hec1 : ((q5.2.end_crc).2).bitsRemaining = q5.2.bitsRemaining := rfl
      have hec2 : ((q5.2.end_crc).2).current_bit = q5.2.current_bit := rfl
      rcases exceptIte_ok h with h | h
      · obtain ⟨q6, hq6, h⟩ := exceptBind_eq_ok h
        obtain ⟨e61, e62⟩ := read_u16_le_bits hq6
        rcases exceptIte_ok h with h | h
        · simp [throw, throwThe, MonadExceptOf.throw, exceptBind_error] at h
        · simp only [Except.ok.injEq, Prod.mk.injEq] at h
          obtain ⟨-, hfin⟩ := h
          subst hfin
          exact ⟨by omega, by omega⟩
      · simp only [Except.ok.injEq, Prod.mk.injEq] at h
        obtain ⟨-, hfin⟩ := h
        subst hfin
        exact ⟨by omega, by omega⟩
    · have hec1 : ((sh0.end_crc).2).bitsRemaining = sh0.bitsRemaining := rfl
      have hec2 : ((sh0.end_crc).2).current_bit = sh0.current_bit := rfl
      rcases exceptIte_ok h with h | h
      · obtain ⟨q6, hq6, h⟩ := exceptBind_eq_ok h
        obtain ⟨e61, e62⟩ := read_u16_le_bits hq6
        rcases exceptIte_ok h with h | h
        · simp [throw, throwThe, MonadExceptOf.throw, exceptBind_error] at h
        · simp only [Except.ok.injEq, Prod.mk.injEq] at h
          obtain ⟨-, hfin⟩ := h
          subst hfin
          exact ⟨by omega, by omega⟩
      · simp only [Except.ok.injEq, Prod.mk.injEq] at h
        obtain ⟨-, hfin⟩ := h
        subst hfin
        exact ⟨by omega, by omega⟩


theorem read_block_header_bits {r r2 : ScryByteReader} {bh : BlockHeader}
    (hcb : r.current_bit < 8) (h : read_block_header r = .ok (bh, r2)) :
    r2.bitsRemaining + 3 = r.bitsRemaining ∧ r2.current_bit < 8 := by
  unfold read_block_header at h
  cases hb : r.read_bit with
  | error e => simp only [hb, exceptBind_error] at h; cases h
  | ok p =>
    obtain ⟨isf, sa⟩ := p
    obtain ⟨h1, h2⟩ := read_bit_bits hcb hb
    simp only [hb, exceptBind_ok] at h
    cases hn : sa.read_n_bits_le 2 with
    | error e => simp only [hn, exceptBind_error] at h; cases h
    | ok q =>
      obtain ⟨bb, sb⟩ := q
      obtain ⟨h3, h4⟩ := read_n_bits_le_bits h2 hn
      simp only [hn, exceptBind_ok] at h
      rcases bb with - | - | - | bb
      · simp only [exceptPure, exceptBind_ok, Except.ok.injEq,
          Prod.mk.injEq] at h
        obtain ⟨-, h5⟩ := h
        subst h5
        exact ⟨by omega, h4⟩
      · simp only [exceptPure, exceptBind_ok, Except.ok.injEq,
          Prod.mk.injEq] at h
        obtain ⟨-, h5⟩ := h
        subst h5
        exact ⟨by omega, h4⟩
      · simp only [exceptPure, exceptBind_ok, Except.ok.injEq,
          Prod.mk.injEq] at h
        obtain ⟨-, h5⟩ := h
        subst h5
        exact ⟨by omega, h4⟩
      · simp [throw, throwThe, MonadExceptOf.throw, exceptBind_error] at h

theorem decodeSymAux_bits (fuel : Nat) :
    ∀ (tree : HuffmanTree) (r : ScryByteReader) (byte len s : Nat)
      (r2 : ScryByteReader), r.current_bit < 8 →
      decodeSymAux tree r byte len fuel = .ok (s, r2) →
      r2.bitsRemaining < r.bitsRemaining ∧ r2.current_bit < 8 := by
  induction fuel with
  | zero => intro tree r byte len s r2 hcb h; cases h
  | succ fuel ih =>
    intro tree r byte len s r2 hcb h
    simp only [decodeSymAux] at h
    cases hb : r.read_bit with
    | error e => simp only [hb, exceptBind_error] at h; cases h
    | ok p =>
      obtain ⟨bit, rb⟩ := p
      obtain ⟨h1, h2⟩ := read_bit_bits hcb hb
      simp only [hb, exceptBind_ok] at h
      cases hdec : HuffmanTree.decode tree ((byte * 2 + bit) % 2 ^ 16) (len + 1) with
      | some symbol =>
        simp only [hdec, Except.ok.injEq, Prod.mk.injEq] at h
        obtain ⟨-, h3⟩ := h
        subst h3
        exact ⟨by omega, h2⟩
      | none =>
        simp only [hdec] at h
        by_cases h15 : 15 < len + 1
        · rw [if_pos h15] at h; cases h
        · rw [if_neg h15] at h
          obtain ⟨h3, h4⟩ := ih tree rb _ _ s r2 h2 h
          exact ⟨by omega, h4⟩

theorem decodeSym_bits {tree : HuffmanTree} {r r2 : ScryByteReader} {s : Nat}
    (hcb : r.current_bit < 8) (h : decodeSym tree r = .ok (s, r2)) :
    r2.bitsRemaining < r.bitsRemaining ∧ r2.current_bit < 8 :=
  decodeSymAux_bits 16 tree r 0 0 s r2 hcb h

theorem ncbCopy_spec (n : Nat) :
    ∀ (r : ScryByteReader) (w : CircularBuffer) (r2 : ScryByteReader)
      (w2 : CircularBuffer) (out : List Nat),
      ncbCopy r w n = .ok (r2, w2, out) →
      out.length = n ∧ r2.bitsRemaining + 8 * n = r.bitsRemaining ∧
        r2.current_bit = r.current_bit := by
  induction n with
  | zero =>
    intro r w r2 w2 out h
    simp only [ncbCopy, Except.ok.injEq, Prod.mk.injEq] at h
    obtain ⟨h1, h2, h3⟩ := h
    subst h1
    subst h3
    exact ⟨rfl, by omega, rfl⟩
  | succ n ih =>
    intro r w r2 w2 out h
    simp only [ncbCopy] at h
    cases hu : r.read_u8 with
    | error e => simp only [hu, exceptBind_error] at h; cases h
    | ok p =>
      obtain ⟨b, rb⟩ := p
      obtain ⟨h1, h2⟩ := read_u8_bits hu
      simp only [hu, exceptBind_ok] at h
      cases hrec : ncbCopy rb (w.push b) n with
      | error e => simp only [hrec, exceptBind_error] at h; cases h
      | ok q =>
        obtain ⟨r3, w3, out3⟩ := q
        obtain ⟨h3, h4, h5⟩ := ih rb (w.push b) r3 w3 out3 hrec
        simp only [hrec, exceptBind_ok, Except.ok.injEq, Prod.mk.injEq] at h
        obtain ⟨ha, hb', hc⟩ := h
        subst ha
        subst hc
        simp only [List.length_cons]
        exact ⟨by omega, by omega, by omega⟩

theorem readClcs_bits (c : Nat) :
    ∀ (r : ScryByteReader) (a : Nat → Nat) (i : Nat) (a2 : Nat → Nat)
      (r2 : ScryByteReader), r.current_bit < 8 →
      readClcs r a i c = .ok (a2, r2) →
      r2.bitsRemaining ≤ r.bitsRemaining ∧ r2.current_bit < 8 := by
  induction c with
  | zero =>
    intro r a i a2 r2 hcb h
    simp only [readClcs, Except.ok.injEq, Prod.mk.injEq] at h
    obtain ⟨-, h2⟩ := h
    subst h2
    exact ⟨Nat.le_refl _, hcb⟩
  | succ c ih =>
    intro r a i a2 r2 hcb h
    simp only [readClcs] at h
    cases hn : r.read_n_bits_le 3 with
    | error e => simp only [hn, exceptBind_error] at h; cases h
    | ok q =>
      obtain ⟨v, rb⟩ := q
      obtain ⟨h1, h2⟩ := read_n_bits_le_bits hcb hn
      simp only [hn, exceptBind_ok] at h
      obtain ⟨h3, h4⟩ := ih rb _ _ a2 r2 h2 h
      exact ⟨by omega, h4⟩

theorem dynLoop_bits (fuel : Nat) :
    ∀ (tree : HuffmanTree) (total : Nat) (a : Nat → Nat) (index : Nat)
      (r : ScryByteReader) (a2 : Nat → Nat) (r2 : ScryByteReader),
      r.current_bit < 8 →
      dynLoop tree total a index r fuel = .ok (a2, r2) →
      r2.bitsRemaining ≤ r.bitsRemaining ∧ r2.current_bit < 8 := by
  induction fuel with
  | zero => intro tree total a index r a2 r2 hcb h; cases h
  | succ fuel ih =>
    intro tree total a index r a2 r2 hcb h
    simp only [dynLoop] at h
    by_cases hti : total ≤ index
    · rw [if_pos hti] at h
      simp only [Except.ok.injEq, Prod.mk.injEq] at h
      obtain ⟨-, h2⟩ := h
      subst h2
      exact ⟨Nat.le_refl _, hcb⟩
    · rw [if_neg hti] at h
      cases hs : decodeSym tree r with
      | error e => simp only [hs, exceptBind_error] at h; cases h
      | ok p =>
        obtain ⟨symbol, rb⟩ := p
        obtain ⟨h1, h2⟩ := decodeSym_bits hcb hs
        simp only [hs, exceptBind_ok] at h
        by_cases h16 : symbol < 16
        · rw [if_pos h16] at h
          cases hw : clsWrite a index symbol with
          | error e => simp only [hw, exceptBind_error] at h; cases h
          | ok a3 =>
            simp only [hw, exceptBind_ok] at h
            obtain ⟨h3, h4⟩ := ih tree total a3 (index + 1) rb a2 r2 h2 h
            exact ⟨by omega, h4⟩
        · rw [if_neg h16] at h
          rcases exceptIte_ok h with h | h
          · rcases exceptIte_ok h with h | h
            · simp [throw, throwThe, MonadExceptOf.throw,
                exceptBind_error] at h
            · obtain ⟨q, hq, h⟩ := exceptBind_eq_ok h
              obtain ⟨e1, e2⟩ := read_n_bits_le_bits h2 hq
              obtain ⟨y, hy, h⟩ := exceptBind_eq_ok h
              simp only [exceptPure, Except.ok.injEq] at hy
              subst hy
              obtain ⟨q2, hq2, h⟩ := exceptBind_eq_ok h
              obtain ⟨h5, h6⟩ := ih tree total q2.1 q2.2 q.2 a2 r2 e2 h
              exact ⟨by omega, h6⟩
          · rcases exceptIte_ok h with h | h
            · obtain ⟨q, hq, h⟩ := exceptBind_eq_ok h
              obtain ⟨e1, e2⟩ := read_n_bits_le_bits h2 hq
              obtain ⟨y, hy, h⟩ := exceptBind_eq_ok h
              simp only [exceptPure, Except.ok.injEq] at hy
              subst hy
              obtain ⟨q2, hq2, h⟩ := exceptBind_eq_ok h
              obtain ⟨h5, h6⟩ := ih tree total q2.1 q2.2 q.2 a2 r2 e2 h
              exact ⟨by omega, h6⟩
            · rcases exceptIte_ok h with h | h
              · obtain ⟨q, hq, h⟩ := exceptBind_eq_ok h
                obtain ⟨e1, e2⟩ := read_n_bits_le_bits h2 hq
                obtain ⟨y, hy, h⟩ := exceptBind_eq_ok h
                simp only [exceptPure, Except.ok.injEq] at hy
                subst hy
                obtain ⟨q2, hq2, h⟩ := exceptBind_eq_ok h
                obtain ⟨h5, h6⟩ := ih tree total q2.1 q2.2 q.2 a2 r2 e2 h
                exact ⟨by omega, h6⟩
              · obtain ⟨y, hy, h⟩ := exceptBind_eq_ok h
                simp only [exceptPure, Except.ok.injEq] at hy
                subst hy
                obtain ⟨q2, hq2, h⟩ := exceptBind_eq_ok h
                obtain ⟨h5, h6⟩ := ih tree total q2.1 q2.2 rb a2 r2 h2 h
                exact ⟨by omega, h6⟩

set_option maxRecDepth 4096 in
theorem decodeLoop_empty {st dt : HuffmanTree} {r : ScryByteReader}
    {w : CircularBuffer} {space : Nat} {r2 : ScryByteReader}
    {w2 : CircularBuffer} {evs : List CheckpointEvent} {st2 : DeflatorState}
    (hcb : r.current_bit < 8)
    (h : decodeLoop st dt r w (space + 1) = .ok ([], r2, w2, evs, st2)) :
    r2.bitsRemaining < r.bitsRemaining ∧ r2.current_bit < 8 ∧
      ∀ c l s2 d2, st2 = .writeLookback c l s2 d2 → c ≤ l := by
  simp only [decodeLoop] at h
  cases hs : decodeSym st r with
  | error e => simp only [hs, exceptBind_error] at h; cases h
  | ok p =>
    obtain ⟨symbol, rb⟩ := p
    obtain ⟨h1, h2⟩ := decodeSym_bits hcb hs
    simp only [hs, exceptBind_ok] at h
    by_cases h256 : symbol < 256
    · rw [if_pos h256] at h
      cases hrec : decodeLoop st dt rb (w.push symbol) space with
      | error e => simp only [hrec, exceptBind_error] at h; cases h
      | ok q =>
        obtain ⟨out3, r3, w3, evs3, st3⟩ := q
        simp only [hrec, exceptBind_ok, Except.ok.injEq, Prod.mk.injEq] at h
        exact absurd h.1 (List.cons_ne_nil _ _)
    · rw [if_neg h256] at h
      by_cases h256e : symbol = 256
      · rw [if_pos h256e] at h
        simp only [Except.ok.injEq, Prod.mk.injEq] at h
        obtain ⟨-, hr, -, -, hst⟩ := h
        subst hr
        refine ⟨by omega, h2, ?_⟩
        intro c l s2 d2 hwl
        rw [← hst] at hwl
        cases hwl
      · rw [if_neg h256e] at h
        cases hbl : BASE_LENGTHS.get? (symbol - 257) with
        | none =>
          simp only [hbl] at h
          simp [throw, throwThe, MonadExceptOf.throw, exceptBind_error] at h
        | some len0 =>
          simp only [hbl, exceptPure, exceptBind_ok] at h
          cases hlb : LENGTH_EXTRA_BITS.get? (symbol - 257) with
          | none =>
            simp only [hlb] at h
            simp [throw, throwThe, MonadExceptOf.throw, exceptBind_error] at h
          | some lb =>
            simp only [hlb, exceptPure, exceptBind_ok] at h
            cases hnb : rb.read_n_bits_le lb with
            | error e => simp only [hnb, exceptBind_error] at h; cases h
            | ok q =>
              obtain ⟨extra, r3⟩ := q
              obtain ⟨h3, h4⟩ := read_n_bits_le_bits h2 hnb
              simp only [hnb, exceptBind_ok] at h
              cases hds : decodeSym dt r3 with
              | error e => simp only [hds, exceptBind_error] at h; cases h
              | ok q2 =>
                obtain ⟨dsym, r4⟩ := q2
                obtain ⟨h5, h6⟩ := decodeSym_bits h4 hds
                simp only [hds, exceptBind_ok] at h
                cases hbd : BASE_DISTS.get? dsym with
                | none =>
                  simp only [hbd] at h
                  simp [throw, throwThe, MonadExceptOf.throw,
                    exceptBind_error] at h
                | some d0 =>
                  simp only [hbd, exceptPure, exceptBind_ok] at h
                  cases hdb : DIST_EXTRA_BITS.get? dsym with
                  | none =>
                    simp only [hdb] at h
                    simp [throw, throwThe, MonadExceptOf.throw,
                      exceptBind_error] at h
                  | some db =>
                    simp only [hdb, exceptPure, exceptBind_ok] at h
                    cases hnb2 : r4.read_n_bits_le db with
                    | error e => simp only [hnb2, exceptBind_error] at h; cases h
                    | ok q3 =>
                      obtain ⟨dextra, r5⟩ := q3
                      obtain ⟨h7, h8⟩ := read_n_bits_le_bits h6 hnb2
                      simp only [hnb2, exceptBind_ok] at h
                      cases hpb : CircularBuffer.push_from_buffer w (d0 + dextra)
                          (len0 + extra) with
                      | error e =>
                        simp only [hpb, exceptBind_error] at h; cases h
                      | ok w4 =>
                        simp only [hpb, exceptBind_ok, Except.ok.injEq,
                          Prod.mk.injEq] at h
                        obtain ⟨-, hr, -, -, hst⟩ := h
                        subst hr
                        refine ⟨by omega, h8, ?_⟩
                        intro c l s2 d2 hwl
                        rw [← hst] at hwl
                        simp only [DeflatorState.writeLookback.injEq] at hwl
                        obtain ⟨hc0, -, -, -⟩ := hwl
                        omega

theorem stateRank_le (s : DeflatorState) : stateRank s ≤ 3 := by
  cases s <;> simp [stateRank]

theorem step_decrease {d d2 : Deflator} {out : List Nat} {bufLen : Nat}
    (hbuf : 1 ≤ bufLen % 2 ^ 16) (hinv : DeflatorInv d)
    (htr : stateTransition d bufLen = .ok (d2, out)) (hout : out = [])
    (hdone : d2.state.isDone = false) :
    deflatorMeasure d2 < deflatorMeasure d ∧ DeflatorInv d2 := by
  obtain ⟨hcb, hwl⟩ := hinv
  subst hout
  obtain ⟨buf, st, fin, rd, evs⟩ := d
  have hcb' : rd.current_bit < 8 := hcb
  have hwl' : ∀ c l s1 d1, st = .writeLookback c l s1 d1 → c ≤ l := hwl
  cases st with
  | gzipHeader =>
    cases hh : read_header rd with
    | ok p =>
      simp only [stateTransition, hh, Except.ok.injEq, Prod.mk.injEq] at htr
      obtain ⟨h1, -⟩ := htr
      subst h1
      obtain ⟨hb, hcbeq⟩ := read_header_bits hh
      refine ⟨?_, ?_, ?_⟩
      · simp only [deflatorMeasure, stateRank]
        omega
      · show p.2.current_bit < 8
        omega
      · intro c l s1 d1 he
        simp at he
    | error e =>
      cases e
      case expectedEOF =>
        simp only [stateTransition, hh, Except.ok.injEq, Prod.mk.injEq] at htr
        obtain ⟨h1, -⟩ := htr
        subst h1
        simp [DeflatorState.isDone] at hdone
      all_goals simp only [stateTransition, hh] at htr
      all_goals cases htr
  | blockHeader =>
    simp only [stateTransition] at htr
    cases hbh : read_block_header rd with
    | error e => simp only [hbh, exceptBind_error] at htr; cases htr
    | ok p =>
      obtain ⟨hb3, hcb2⟩ := read_block_header_bits hcb' hbh
      simp only [hbh, exceptBind_ok] at htr
      cases hbt : p.1.block_type <;>
        simp only [hbt, Except.ok.injEq, Prod.mk.injEq] at htr <;>
        obtain ⟨h1, -⟩ := htr <;>
        subst h1 <;>
        refine ⟨by simp only [deflatorMeasure, stateRank]; omega,
          (by show p.2.current_bit < 8; omega), ?_⟩ <;>
        intro c l s1 d1 he <;>
        simp at he
  | prepareNonCompressedBlock =>
    simp only [stateTransition] at htr
    obtain ⟨ed1, ed2⟩ := discard_bits rd
    cases h1 : (rd.discard_until_next_byte).read_u16_le with
    | error e => simp only [h1, exceptBind_error] at htr; cases htr
    | ok p =>
      obtain ⟨e1, e2⟩ := read_u16_le_bits h1
      simp only [h1, exceptBind_ok] at htr
      cases h2 : p.2.read_u16_le with
      | error e => simp only [h2, exceptBind_error] at htr; cases htr
      | ok q =>
        obtain ⟨e3, e4⟩ := read_u16_le_bits h2
        simp only [h2, exceptBind_ok] at htr
        obtain ⟨htr, -⟩ := exceptIte_throw_ok htr
        simp only [Except.ok.injEq, Prod.mk.injEq] at htr
        obtain ⟨h3, -⟩ := htr
        subst h3
        refine ⟨?_, ?_, ?_⟩
        · simp only [deflatorMeasure, stateRank]
          omega
        · show q.2.current_bit < 8
          omega
        · intro c l s1 d1 he
          simp at he
  | nonCompressedBlock size =>
    simp only [stateTransition] at htr
    cases hnc : ncbCopy rd buf (min size (bufLen % 2 ^ 16)) with
    | error e => simp only [hnc, exceptBind_error] at htr; cases htr
    | ok p =>
      obtain ⟨r2, w2, out2⟩ := p
      obtain ⟨hlen, hbits, hcbe⟩ := ncbCopy_spec _ rd buf r2 w2 out2 hnc
      simp only [hnc, exceptBind_ok, Except.ok.injEq, Prod.mk.injEq] at htr
      obtain ⟨h1, h2⟩ := htr
      subst h1
      subst h2
      have hlen0 : (0 : Nat) = min size (bufLen % 2 ^ 16) := hlen
      have hnb : min size (bufLen % 2 ^ 16) = 0 := by omega
      have hrem : size - min size (bufLen % 2 ^ 16) = 0 := by omega
      refine ⟨?_, ?_, ?_⟩
      · rw [deflatorMeasure, deflatorMeasure, if_pos hrem]
        simp only [stateRank]
        omega
      · show r2.current_bit < 8
        omega
      · intro c l s1 d1 he
        rw [show (Deflator.mk buf (if size - min size (bufLen % 2 ^ 16) = 0 then
            DeflatorState.checkIfFinalBlock
          else DeflatorState.nonCompressedBlock
            (size - min size (bufLen % 2 ^ 16))) fin r2 evs).state
            = DeflatorState.checkIfFinalBlock from by rw [if_pos hrem]] at he
        cases he
  | prepareDynamicBlock =>
    simp only [stateTransition] at htr
    obtain ⟨p1, hp1, htr⟩ := exceptBind_eq_ok htr
    obtain ⟨f1, f2⟩ := read_n_bits_le_bits hcb' hp1
    obtain ⟨p2, hp2, htr⟩ := exceptBind_eq_ok htr
    obtain ⟨f3, f4⟩ := read_n_bits_le_bits f2 hp2
    obtain ⟨p3, hp3, htr⟩ := exceptBind_eq_ok htr
    obtain ⟨f5, f6⟩ := read_n_bits_le_bits f4 hp3
    obtain ⟨p4, hp4, htr⟩ := exceptBind_eq_ok htr
    obtain ⟨f7, f8⟩ := readClcs_bits _ _ _ _ _ _ f6 hp4
    obtain ⟨p5, hp5, htr⟩ := exceptBind_eq_ok htr
    obtain ⟨f9, f10⟩ := dynLoop_bits _ _ _ _ _ _ _ _ f8 hp5
    simp only [Except.ok.injEq, Prod.mk.injEq] at htr
    obtain ⟨h1, -⟩ := htr
    subst h1
    refine ⟨?_, ?_, ?_⟩
    · simp only [deflatorMeasure, stateRank]
      omega
    · show p5.2.current_bit < 8
      omega
    · intro c l s1 d1 he
      simp at he
  | decodeBlock stt dtt =>
    simp only [stateTransition] at htr
    cases hdl : decodeLoop stt dtt rd buf bufLen with
    | error e => simp only [hdl, exceptBind_error] at htr; cases htr
    | ok p =>
      obtain ⟨out2, r2, w2, evs2, st2⟩ := p
      simp only [hdl, exceptBind_ok, Except.ok.injEq, Prod.mk.injEq] at htr
      obtain ⟨h1, h2⟩ := htr
      subst h1
      subst h2
      obtain ⟨k, hk⟩ : ∃ k, bufLen = k + 1 :=
        ⟨bufLen - 1, by have := Nat.mod_le bufLen (2 ^ 16); omega⟩
      rw [hk] at hdl
      obtain ⟨hb2, hcb2, hwl2⟩ := decodeLoop_empty hcb' hdl
      refine ⟨?_, hcb2, ?_⟩
      · simp only [deflatorMeasure]
        have hr2 := stateRank_le st2
        have hr1 : stateRank (DeflatorState.decodeBlock stt dtt) = 1 := rfl
        omega
      · intro c l s1 d1 he
        exact hwl2 c l s1 d1 he
  | writeLookback current len stt dtt =>
    simp only [stateTransition, Except.ok.injEq, Prod.mk.injEq] at htr
    obtain ⟨h1, h2⟩ := htr
    subst h1
    have hnum : min (len - current) (bufLen % 2 ^ 16) = 0 := by
      have := congrArg List.length h2
      simpa using this
    have hcle := hwl' current len stt dtt rfl
    have hcl : current + min (len - current) (bufLen % 2 ^ 16) = len := by omega
    refine ⟨?_, hcb', ?_⟩
    · rw [deflatorMeasure, deflatorMeasure, if_pos hcl]
      simp only [stateRank]
      omega
    · intro c l s1 d1 he
      rw [show (Deflator.mk buf (if current + min (len - current) (bufLen % 2 ^ 16)
            = len then DeflatorState.decodeBlock stt dtt
          else DeflatorState.writeLookback
            (current + min (len - current) (bufLen % 2 ^ 16)) len stt dtt)
          fin rd evs).state = DeflatorState.decodeBlock stt dtt from
          by rw [if_pos hcl]] at he
      cases he
  | checkIfFinalBlock =>
    cases fin <;>
      simp only [stateTransition, Bool.false_eq_true, if_false, if_pos,
        Except.ok.injEq, Prod.mk.injEq] at htr
    · obtain ⟨h1, -⟩ := htr
      subst h1
      exact ⟨by simp only [deflatorMeasure, stateRank]; omega, hcb',
        fun c l s1 d1 he => by simp at he⟩
    · obtain ⟨h1, -⟩ := htr
      subst h1
      exact ⟨by simp only [deflatorMeasure, stateRank]; omega, hcb',
        fun c l s1 d1 he => by simp at he⟩
  | gzipFooter =>
    simp only [stateTransition] at htr
    obtain ⟨ed1, ed2⟩ := discard_bits rd
    cases hr1 : (rd.discard_until_next_byte).read_u32_le with
    | error e => simp only [hr1, exceptBind_error] at htr; cases htr
    | ok p =>
      obtain ⟨e1, e2⟩ := read_u32_le_bits hr1
      simp only [hr1, exceptBind_ok] at htr
      obtain ⟨htr, -⟩ := exceptIte_throw_ok htr
      cases hr2 : p.2.read_u32_le with
      | error e => simp only [hr2, exceptBind_error] at htr; cases htr
      | ok q =>
        obtain ⟨e3, e4⟩ := read_u32_le_bits hr2
        simp only [hr2, exceptBind_ok] at htr
        obtain ⟨htr, -⟩ := exceptIte_throw_ok htr
        simp only [Except.ok.injEq, Prod.mk.injEq] at htr
        obtain ⟨h1, -⟩ := htr
        subst h1
        refine ⟨?_, ?_, ?_⟩
        · simp only [deflatorMeasure, stateRank]
          omega
        · show q.2.current_bit < 8
          omega
        · intro c l s1 d1 he
          simp at he
  | done =>
    simp only [stateTransition, Except.ok.injEq, Prod.mk.injEq] at htr
    obtain ⟨h1, -⟩ := htr
    subst h1
    simp [DeflatorState.isDone] at hdone

theorem readLoop_step {bufLen fuel : Nat} {d d2 : Deflator}
    (htr : stateTransition d bufLen = .ok (d2, []))
    (hdone : d2.state.isDone = false) :
    readLoop bufLen (fuel + 1) d = readLoop bufLen fuel d2 := by
  simp [readLoop, htr, hdone]

theorem readLoop_total {bufLen : Nat} (hbuf : 1 ≤ bufLen % 2 ^ 16) :
    ∀ (N : Nat) (d : Deflator), deflatorMeasure d < N → DeflatorInv d →
      ∃ r, readLoop bufLen N d = some r := by
  intro N
  induction N with
  | zero => intro d h _; exact absurd h (Nat.not_lt_zero _)
  | succ N ih =>
    intro d hM hinv
    cases htr : stateTransition d bufLen with
    | error e => exact ⟨.error e, by simp [readLoop, htr]⟩
    | ok p =>
      obtain ⟨d2, out⟩ := p
      cases hdone : d2.state.isDone with
      | true => exact ⟨.ok (d2, out), by simp [readLoop, htr, hdone]⟩
      | false =>
        cases hout : out with
        | nil =>
          subst hout
          obtain ⟨hlt, hinv2⟩ := step_decrease hbuf hinv htr rfl hdone
          obtain ⟨r, hr⟩ := ih d2 (by omega) hinv2
          exact ⟨r, by simp [readLoop, htr, hdone, hr]⟩
        | cons b bs =>
          subst hout
          exact ⟨.ok (d2, b :: bs), by simp [readLoop, htr, hdone]⟩

theorem readLoop_post {bufLen : Nat} :
    ∀ (fuel : Nat) (d d2 : Deflator) (out : List Nat),
      readLoop bufLen fuel d = some (.ok (d2, out)) →
      out ≠ [] ∨ d2.state.isDone = true := by
  intro fuel
  induction fuel with
  | zero => intro d d2 out h; simp [readLoop] at h
  | succ fuel ih =>
    intro d d2 out h
    simp only [readLoop] at h
    cases htr : stateTransition d bufLen with
    | error e => rw [htr] at h; simp at h
    | ok p =>
      obtain ⟨d1, out1⟩ := p
      rw [htr] at h
      cases hdone : d1.state.isDone with
      | true =>
        simp only [hdone, if_true] at h
        simp only [Option.some.injEq, Except.ok.injEq, Prod.mk.injEq] at h
        obtain ⟨h1, -⟩ := h
        subst h1
        exact .inr hdone
      | false =>
        simp only [hdone, Bool.false_eq_true, if_false] at h
        cases hout : out1 with
        | nil =>
          subst hout
          simp only [List.length_nil, if_pos] at h
          exact ih d1 d2 out h
        | cons b bs =>
          subst hout
          simp only [List.length_cons] at h
          rw [if_neg (by omega)] at h
          simp only [Option.some.injEq, Except.ok.injEq, Prod.mk.injEq] at h
          obtain ⟨h1, h2⟩ := h
          subst h1
          exact .inl (by rw [← h2]; exact List.cons_ne_nil _ _)

theorem ncb_stuck : ∀ (fuel n : Nat) (d : Deflator),
    d.state = .nonCompressedBlock (n + 1) → readLoop 0 fuel d = none := by
  intro fuel
  induction fuel with
  | zero => intro n d _; rfl
  | succ fuel ih =>
    intro n d hst
    have htr : stateTransition d 0 =
        .ok ({ d with state := .nonCompressedBlock (n + 1) }, []) := by
      simp only [stateTransition, hst]
      simp [ncbCopy, exceptBind_ok]
    rw [readLoop_step htr (by simp [DeflatorState.isDone])]
    exact ih n _ rfl

/-- C7 counterexample: with an empty output buffer the claim fails.  On
`c7StoredInput` (a stored block with one pending byte) the machine reaches
`NonCompressedBlock 1`; with `buf.len() = 0` each transition copies
`min(1, 0) = 0` bytes, writes nothing, stays in the same state, and is not
`Done`, so `read_internal`'s `while bytes_written == 0` loop never exits:
no fuel makes the driver loop return. -/
theorem c7_counterexample : ¬ ReadTerminates c7m0 0 := by
  intro hterm
  obtain ⟨fuel, r, hr⟩ := hterm
  have key : ∀ k, readLoop 0 k c7m0 = none := by
    intro k
    rcases k with - | k
    · rfl
    · rw [readLoop_step (show stateTransition c7m0 0 = .ok (c7m1, []) from rfl)
        (show c7m1.state.isDone = false from rfl)]
      rcases k with - | k
      · rfl
      · rw [readLoop_step
          (show stateTransition c7m1 0 = .ok (c7m2, []) from rfl)
          (show c7m2.state.isDone = false from rfl)]
        rcases k with - | k
        · rfl
        · rw [readLoop_step
            (show stateTransition c7m2 0 = .ok (c7m3, []) from rfl)
            (show c7m3.state.isDone = false from rfl)]
          exact ncb_stuck k 0 c7m3 rfl
  rw [key fuel] at hr
  cases hr

/-- C7 (amended): for every machine whose bit cursor is inside a byte and
whose pending lookback (if any) has not run past its end — true of every
reachable machine — and every output buffer whose length is nonzero after
the code's `as u16` truncation (in particular any length in 1..65535),
`read_internal` terminates: the driver loop reaches an error, a `Done`
state, or a transition that wrote output; and every non-error return has
written at least one byte or left the machine in `Done`.  The original
claim's allowance of an empty output buffer is refuted by the
counterexample (the machine can loop forever on a stored block), and a
buffer of exactly 65536 bytes is truncated to 0 by `buf.len() as u16`,
looping the same way. -/
theorem c7_read_terminates (d : Deflator) (bufLen : Nat)
    (hbuf : 1 ≤ bufLen % 2 ^ 16) (hinv : DeflatorInv d) :
    ReadTerminates d bufLen ∧
    ∀ fuel d2 out, readLoop bufLen fuel d = some (.ok (d2, out)) →
      out ≠ [] ∨ d2.state.isDone = true := by
  constructor
  · obtain ⟨r, hr⟩ := readLoop_total hbuf (deflatorMeasure d + 1) d
      (Nat.lt_succ_self _) hinv
    exact ⟨deflatorMeasure d + 1, r, hr⟩
  · intro fuel d2 out h
    exact readLoop_post fuel d d2 out h

/-- C7 witness: the amended theorem applied to the initial machine on
`c1StoredInput` with a one-byte output buffer. -/
theorem c7_read_terminates_witness :
    (1 ≤ 1 % 2 ^ 16 ∧
      DeflatorInv (Deflator.new (ScryByteReader.new c1StoredInput) 0)) ∧
    (ReadTerminates (Deflator.new (ScryByteReader.new c1StoredInput) 0) 1 ∧
      ∀ fuel d2 out,
        readLoop 1 fuel (Deflator.new (ScryByteReader.new c1StoredInput) 0)
          = some (.ok (d2, out)) → out ≠ [] ∨ d2.state.isDone = true) :=
  ⟨⟨by decide, ⟨by decide, fun c l s1 d1 h => by cases h⟩⟩,
   c7_read_terminates (Deflator.new (ScryByteReader.new c1StoredInput) 0) 1
     (by decide) ⟨by decide, fun c l s1 d1 h => by cases h⟩⟩

end Cornifer
